import Mathlib

/-!
Verification development for the Home-Middleman task automation engine
(src/index.js, lines 1-1444, and the sqlite helper module).

Strings are modelled as `List Char`.  JavaScript numbers appearing in the
engine are always results of `parseInt` on digit captures and small integer
arithmetic; they are modelled as exact `Nat`/`Int` values (the IEEE-754
rounding of integers above 2^53 is outside the model).  Each regular
expression used by `doTask` is modelled by a dedicated anchored matcher
(`tryLit`, `tryNum`, `tryBr`, `tryArith`, `tryFiles`, `tryDotted`) together
with a leftmost-scan combinator `replFirst` (non-global `String.replace`)
and `replAllBr` (the one global replace, for the bracket form).
-/

namespace HM

/-- Characters of a JavaScript string, the representation used throughout. -/
abbrev Str := List Char

def strL (s : String) : Str := s.toList

/-- JS whitespace class `\s` (ASCII part: space, tab, LF, VT, FF, CR);
`String.prototype.trim` strips the same class. -/
def isWs (c : Char) : Bool :=
  c == ' ' || c == '\t' || c == '\n' || c == '\x0b' || c == '\x0c' || c == '\r'

def notWs (c : Char) : Bool := !(isWs c)

/-- JS regex `.` (without the s flag): any char except line terminators. -/
def isDot (c : Char) : Bool := !(c == '\n' || c == '\r' || c == '\u2028' || c == '\u2029')

def digitChar (d : Nat) : Char := ['0','1','2','3','4','5','6','7','8','9'].getD d '0'

def digitVal (c : Char) : Nat := c.toNat - 48

/-- `parseInt` on an all-digit capture. -/
def parseDigits (s : Str) : Nat := s.foldl (fun a c => 10 * a + digitVal c) 0

/-- Decimal rendering of a non-negative JS number (fuel-guarded structural
recursion; the wrapper's fuel `n` always suffices since `n / 10 < n`). -/
def natToCharsGo : Nat → Nat → Str
  | 0, n => [digitChar (n % 10)]
  | fuel + 1, n =>
    if n < 10 then [digitChar n] else natToCharsGo fuel (n / 10) ++ [digitChar (n % 10)]

def natToChars (n : Nat) : Str := natToCharsGo n n

/-- Decimal rendering of a JS integer (possibly negative). -/
def intToChars (i : Int) : Str :=
  if i < 0 then '-' :: natToChars i.natAbs else natToChars i.toNat

/-- `String.prototype.trim`. -/
def trimL (s : Str) : Str := ((s.dropWhile isWs).reverse.dropWhile isWs).reverse

/-- `String.prototype.split(' ')`: split at every single space, keeping empties. -/
def splitSp : Str → List Str
  | [] => [[]]
  | c :: cs =>
    if c == ' ' then [] :: splitSp cs
    else
      match splitSp cs with
      | t :: ts => (c :: t) :: ts
      | [] => [[c]]

/-- `Array.prototype.join(' ')`. -/
def joinSp : List Str → Str
  | [] => []
  | [t] => t
  | t :: ts => t ++ ' ' :: joinSp ts

/-! ### Anchored matchers for the `doTask` regular expressions -/

/-- If `pat` is a prefix of `t`, the remainder after it. -/
def stripPfx (pat t : Str) : Option Str :=
  if pat.isPrefixOf t then some (t.drop pat.length) else none

def hourPat : Str := strL "~hour~"
def datePat : Str := strL "~date~"
def incPat : Str := strL "~inc$"
def decPat : Str := strL "~dec$"
def brPat : Str := strL "~\x7b"
def tildePat : Str := strL "~"
def filesPat : Str := strL "~files"
def linesPat : Str := strL "~lines"
def wordsPat : Str := strL "~words"

/-- Anchored match of a literal pattern (`String.replace` with a string arg). -/
def tryLit (pat : Str) (t : Str) : Option (Unit × Str) :=
  match stripPfx pat t with
  | some r => some ((), r)
  | none => none

/-- Anchored match of `pat(\d+)~`, covering `~inc\$(\d+)~` and `~dec\$(\d+)~`.
The greedy `\d+` is a maximal digit run; the following char must be `~`. -/
def tryNum (pat : Str) (t : Str) : Option (Str × Str) :=
  match stripPfx pat t with
  | none => none
  | some r =>
    let ds := r.takeWhile Char.isDigit
    if ds.isEmpty then none
    else
      match r.dropWhile Char.isDigit with
      | c :: r2 => if c == '~' then some (ds, r2) else none
      | [] => none

def tryInc (t : Str) : Option (Str × Str) := tryNum incPat t
def tryDec (t : Str) : Option (Str × Str) := tryNum decPat t

def notRb (c : Char) : Bool := !(c == '\x7d')

/-- Anchored match of `~\x7b([^\x7d]*)\x7d~` (the bracket rotation form). -/
def tryBr (t : Str) : Option (Str × Str) :=
  match stripPfx brPat t with
  | none => none
  | some r =>
    match r.dropWhile notRb with
    | c1 :: c2 :: r2 =>
      if c1 == '\x7d' && c2 == '~' then some (r.takeWhile notRb, r2) else none
    | _ => none

/-- Anchored match of `~(\d+)\s*OP\s*(\d+)~` for `OP` in `+`/`-`.  All
sub-patterns are over disjoint character classes, so greedy maximal runs
coincide with the backtracking regex semantics. -/
def tryArith (op : Char) (t : Str) : Option ((Str × Str) × Str) :=
  match stripPfx tildePat t with
  | none => none
  | some r =>
    let a := r.takeWhile Char.isDigit
    if a.isEmpty then none
    else
      match (r.dropWhile Char.isDigit).dropWhile isWs with
      | c :: r2 =>
        if c == op then
          let r3 := r2.dropWhile isWs
          let b := r3.takeWhile Char.isDigit
          if b.isEmpty then none
          else
            match r3.dropWhile Char.isDigit with
            | c2 :: r4 => if c2 == '~' then some ((a, b), r4) else none
            | [] => none
        else none
      | [] => none

/-- Anchored match of `~files\s+(\S+)\s+(\d+)~`.  Since `\S`/`\s`/`\d` and the
final `~` interact over disjoint classes, maximal runs again coincide with the
backtracking semantics. -/
def tryFiles (t : Str) : Option ((Str × Str) × Str) :=
  match stripPfx filesPat t with
  | none => none
  | some r =>
    if (r.takeWhile isWs).isEmpty then none
    else
      let r1 := r.dropWhile isWs
      let a := r1.takeWhile notWs
      if a.isEmpty then none
      else
        let r2 := r1.dropWhile notWs
        if (r2.takeWhile isWs).isEmpty then none
        else
          let r3 := r2.dropWhile isWs
          let b := r3.takeWhile Char.isDigit
          if b.isEmpty then none
          else
            match r3.dropWhile Char.isDigit with
            | c :: r4 => if c == '~' then some ((a, b), r4) else none
            | [] => none

/-- The `\s+(\d+)~` tail of the lines/words patterns. -/
def wsDigitsTilde (s : Str) : Option (Str × Str) :=
  if (s.takeWhile isWs).isEmpty then none
  else
    let r1 := s.dropWhile isWs
    let ds := r1.takeWhile Char.isDigit
    if ds.isEmpty then none
    else
      match r1.dropWhile Char.isDigit with
      | c :: r2 => if c == '~' then some (ds, r2) else none
      | [] => none

/-- Lazy `(.+?)` growth: shortest dot-only content after which the tail
pattern matches. -/
def lazyDotScan (acc : Str) : Str → Option ((Str × Str) × Str)
  | [] => none
  | c :: cs =>
    if isDot c then
      match wsDigitsTilde cs with
      | some (ds, rest) => some ((acc ++ [c], ds), rest)
      | none => lazyDotScan (acc ++ [c]) cs
    else none

/-- Backtracking over the length of the greedy leading `\s+`: longest first. -/
def wsBacktrack (r : Str) : Nat → Option ((Str × Str) × Str)
  | 0 => none
  | j + 1 =>
    match lazyDotScan [] (r.drop (j + 1)) with
    | some res => some res
    | none => wsBacktrack r j

/-- Anchored match of `pat\s+(.+?)\s+(\d+)~`, covering `~lines` and `~words`. -/
def tryDotted (pat : Str) (t : Str) : Option ((Str × Str) × Str) :=
  match stripPfx pat t with
  | none => none
  | some r => wsBacktrack r (r.takeWhile isWs).length

def tryLines (t : Str) : Option ((Str × Str) × Str) := tryDotted linesPat t
def tryWords (t : Str) : Option ((Str × Str) × Str) := tryDotted wordsPat t

/-! ### Replace combinators -/

/-- `String.replace` with a non-global regex: substitute the leftmost match
only. -/
def replFirst {α : Type} (m : Str → Option (α × Str)) (f : α → Str) : Str → Str
  | [] => []
  | c :: cs =>
    match m (c :: cs) with
    | some (cap, rest) => f cap ++ rest
    | none => c :: replFirst m f cs

/-- A bracket match consumes at least the two delimiters on each side. -/
theorem tryBr_length : ∀ {t : Str} {cap rest : Str},
    tryBr t = some (cap, rest) → rest.length < t.length := by
  intro t cap rest h
  unfold tryBr at h
  cases hp : stripPfx brPat t with
  | none => rw [hp] at h; exact absurd h (by simp)
  | some r =>
    rw [hp] at h
    simp only [] at h
    have hr : r.length + 2 ≤ t.length := by
      unfold stripPfx at hp
      split at hp
      · rename_i hpre
        cases hp
        have hle : brPat.length ≤ t.length :=
          (List.isPrefixOf_iff_prefix.mp hpre).length_le
        have hbl : brPat.length = 2 := by decide
        simp only [List.length_drop]
        omega
      · cases hp
    cases hd : r.dropWhile notRb with
    | nil => rw [hd] at h; exact absurd h (by simp)
    | cons c1 tl =>
      cases tl with
      | nil => rw [hd] at h; exact absurd h (by simp)
      | cons c2 r2 =>
        rw [hd] at h
        have h24 : r2.length + 2 ≤ r.length := by
          have hsub : List.Sublist (r.dropWhile notRb) r := List.dropWhile_sublist notRb
          rw [hd] at hsub
          have := hsub.length_le
          simp only [List.length_cons] at this
          omega
        simp only [] at h
        split at h
        · cases h; omega
        · exact absurd h (by simp)

/-- `String.replace` with the global bracket regex, fuel-guarded so that it
is structurally recursive: substitute every match, scanning left to right and
never rescanning a replacement.  One step consumes at least one character
(`tryBr_length`), so the wrapper's fuel `s.length` never runs out. -/
def replAllBrGo (f : Str → Str) : Nat → Str → Str
  | _, [] => []
  | 0, s => s
  | fuel + 1, c :: cs =>
    match tryBr (c :: cs) with
    | some (cap, rest) => f cap ++ replAllBrGo f fuel rest
    | none => c :: replAllBrGo f fuel cs

def replAllBr (f : Str → Str) (s : Str) : Str := replAllBrGo f s.length s

/-! ### The expansion and advance passes of `doTask` -/

/-- Environment abstracting `getHour`, `getDate`, `fileById`, `getLine`,
`getWord` (the last three take the raw captured strings). -/
structure TplEnv where
  hour : Str
  date : Str
  files : Str → Str → Str
  lineAt : Str → Str → Str
  wordAt : Str → Str → Str

/-- `contents.split(' ')[0]`. -/
def firstTok (content : Str) : Str := content.takeWhile (fun c => !(c == ' '))

/-- The bracket advance: `'~\x7b' + split(' ').slice(1).join(' ') +
` ${split(' ').slice(0,1)}` + '\x7d~'`. -/
def rotateBr (content : Str) : Str :=
  let toks := splitSp content
  strL "~\x7b" ++ joinSp (toks.drop 1) ++ ' ' :: joinSp (toks.take 1) ++ strL "\x7d~"

/-- The evaluation chain of `doTask` (src/index.js lines 375-385): the
effective value for this run. -/
def evalTemplate (env : TplEnv) (s : Str) : Str :=
  let s1 := replFirst (tryLit hourPat) (fun _ => env.hour) s
  let s2 := replFirst (tryLit datePat) (fun _ => env.date) s1
  let s3 := replFirst tryInc (fun ds => natToChars (parseDigits ds)) s2
  let s4 := replFirst tryDec (fun ds => natToChars (parseDigits ds)) s3
  let s5 := replAllBr firstTok s4
  let s6 := replFirst (tryArith '+') (fun ab => ab.1) s5
  let s7 := replFirst (tryArith '-') (fun ab => ab.1) s6
  let s8 := replFirst tryFiles (fun ab => env.files ab.1 ab.2) s7
  let s9 := replFirst tryLines (fun ab => env.lineAt ab.1 ab.2) s8
  replFirst tryWords (fun ab => env.wordAt ab.1 ab.2) s9

/-- The advance chain of `doTask` (src/index.js lines 399-407): the next-run
template. -/
def advanceTemplate (s : Str) : Str :=
  let s1 := replFirst tryInc (fun ds => incPat ++ natToChars (parseDigits ds + 1) ++ ['~']) s
  let s2 := replFirst tryDec (fun ds => decPat ++ intToChars ((parseDigits ds : Int) - 1) ++ ['~']) s1
  let s3 := replAllBr rotateBr s2
  let s4 := replFirst (tryArith '+')
    (fun ab => '~' :: natToChars (parseDigits ab.1 + parseDigits ab.2) ++ strL " + " ++ ab.2 ++ ['~']) s3
  let s5 := replFirst (tryArith '-')
    (fun ab => '~' :: intToChars ((parseDigits ab.1 : Int) - (parseDigits ab.2 : Int)) ++ strL " - " ++ ab.2 ++ ['~']) s4
  let s6 := replFirst tryFiles
    (fun ab => strL "~files " ++ ab.1 ++ ' ' :: natToChars (parseDigits ab.2 + 1) ++ ['~']) s5
  let s7 := replFirst tryLines
    (fun ab => strL "~lines " ++ ab.1 ++ ' ' :: natToChars (parseDigits ab.2 + 1) ++ ['~']) s6
  replFirst tryWords
    (fun ab => strL "~words " ++ ab.1 ++ ' ' :: natToChars (parseDigits ab.2 + 1) ++ ['~']) s7

/-- Iterated advance: the template after `k` further runs. -/
def advanceIter : Nat → Str → Str
  | 0, s => s
  | k + 1, s => advanceIter k (advanceTemplate s)

/-! ### Retry-capable HTTP client (`withRetries`, src/index.js lines 105-190) -/

/-- Outcome of one physical attempt: an HTTP response status, or a network
error with its optional `err.code`. -/
inductive NetOutcome
  | response (status : Nat)
  | netError (code : Option String)
deriving DecidableEq

def RETRY_BACKOFFS_MS : List Nat := [500, 1500, 3500]

/-- src/index.js line 106. -/
def isTransientStatus (statusCode : Nat) : Bool :=
  statusCode == 408 || statusCode == 429 || decide (500 ≤ statusCode)

/-- src/index.js line 116. -/
def transientCodes : List String :=
  ["ETIMEDOUT", "ECONNRESET", "EAI_AGAIN", "ECONNREFUSED", "ENETUNREACH",
   "EHOSTUNREACH", "ENOTFOUND", "EPIPE"]

/-- src/index.js lines 114-117 (`!err || !err.code` gives `false`). -/
def isTransientError : Option String → Bool
  | none => false
  | some c => transientCodes.contains c

/-- The retry condition of the `withRetries` loop body. -/
def shouldRetry : NetOutcome → Bool
  | .response st => isTransientStatus st
  | .netError c => isTransientError c

/-- A finished call: a resolved response status, or a thrown error code. -/
inductive CallResult
  | ok (status : Nat)
  | thrown (code : Option String)
deriving DecidableEq

/-- How an attempt's outcome is returned when not retried: a response
resolves, an error is thrown. -/
def settle : NetOutcome → CallResult
  | .response st => .ok st
  | .netError c => .thrown c

/-- Observable behaviour of one `withRetries` call: the returned/thrown
outcome, the slept delays in order, and the number of attempts made. -/
structure RetryTrace where
  result : CallResult
  sleeps : List Nat
  attempts : Nat
deriving DecidableEq

/-- The `withRetries` loop, `oracle k` being the outcome of attempt `k`
(attempts counted from 0) and the list the remaining backoff delays. -/
def withRetriesGo (oracle : Nat → NetOutcome) : List Nat → Nat → RetryTrace
  | [], k => ⟨settle (oracle k), [], k + 1⟩
  | d :: rest, k =>
    let o := oracle k
    if shouldRetry o then
      let r := withRetriesGo oracle rest (k + 1)
      ⟨r.result, d :: r.sleeps, r.attempts⟩
    else ⟨settle o, [], k + 1⟩

/-- src/index.js lines 169-190. -/
def withRetries (oracle : Nat → NetOutcome) (backoffsMs : List Nat) : RetryTrace :=
  withRetriesGo oracle backoffsMs 0

/-! ### Persistence and application state -/

structure Task where
  name : Str
  type : Str
  data : Str
  postType : Str
  postData : Str
deriving DecidableEq

structure IntervalDef where
  name : Str
  timeMs : Int
deriving DecidableEq

structure ActiveTimer where
  name : Str
  id : Nat
  time : Int
deriving DecidableEq

/-- The three sqlite tables of the core (tasks, intervals, logs), rows in
insertion order; `name` is the primary key of the first two. -/
structure DbState where
  tasks : List Task
  intervalDefs : List IntervalDef
  logs : List Str
deriving DecidableEq

/-- In-memory globals of src/index.js plus the persisted store. -/
structure AppState where
  db : DbState
  gTasks : List Task
  gIntervals : List ActiveTimer
  gTasksLog : List Str
  nextTimerId : Nat
deriving DecidableEq

def MAX_LOG_ENTRIES : Nat := 1000

/-- `upsertTask` (INSERT .. ON CONFLICT(name) DO UPDATE). -/
def dbUpsertTask (l : List Task) (t : Task) : List Task :=
  if l.any (fun x => x.name == t.name)
  then l.map (fun x => if x.name == t.name then t else x)
  else l ++ [t]

/-- `addIntervalDef` (INSERT .. ON CONFLICT(name) DO UPDATE). -/
def dbAddIntervalDef (l : List IntervalDef) (nm : Str) (tm : Int) : List IntervalDef :=
  if l.any (fun x => x.name == nm)
  then l.map (fun x => if x.name == nm then ⟨nm, tm⟩ else x)
  else l ++ [⟨nm, tm⟩]

def dbDeleteTask (l : List Task) (nm : Str) : List Task :=
  l.filter (fun x => !(x.name == nm))

def dbDeleteIntervalDef (l : List IntervalDef) (nm : Str) : List IntervalDef :=
  l.filter (fun x => !(x.name == nm))

/-- `addLog`: plain INSERT, no eviction. -/
def dbAddLog (l : List Str) (m : Str) : List Str := l ++ [m]

/-- `getLastLogs(limit)`: SELECT .. ORDER BY id DESC LIMIT ?, then reversed
back to chronological order. -/
def dbGetLastLogs (limit : Nat) (l : List Str) : List Str :=
  (l.reverse.take limit).reverse

/-- `pushLog` (src/index.js lines 196-207): INSERT into sqlite, push onto the
in-memory mirror, splice the mirror down to the last `MAX_LOG_ENTRIES`. -/
def pushLog (s : AppState) (entry : Str) : AppState :=
  let mem := s.gTasksLog ++ [entry]
  let mem2 := if MAX_LOG_ENTRIES < mem.length then mem.drop (mem.length - MAX_LOG_ENTRIES) else mem
  { s with db := { s.db with logs := dbAddLog s.db.logs entry }, gTasksLog := mem2 }

def pushLogN : Nat → AppState → Str → AppState
  | 0, s, _ => s
  | n + 1, s, e => pushLogN n (pushLog s e) e

/-! ### Request builder (the `switch (a.type)` of `doTask`) -/

structure BuiltRequest where
  url : Str
  isPost : Bool
  body : Str
  contentType : Str
deriving DecidableEq

def apiPre : Str := strL "http://localhost:1337/api/"

/-- src/index.js lines 418-443 with the dispatch branches 444-474: POST
requests carry the expanded `postData` with the task's `postType`. -/
def buildRequest (ty dataV postV postType : Str) : BuiltRequest :=
  let g := fun (u : Str) => BuiltRequest.mk u false [] []
  let p := fun (u : Str) => BuiltRequest.mk u true postV postType
  if ty == strL "http" then g (apiPre ++ strL "httpp/" ++ dataV)
  else if ty == strL "httppost" then p (apiPre ++ strL "httpp/" ++ dataV)
  else if ty == strL "https" then g (apiPre ++ strL "httpps/" ++ dataV)
  else if ty == strL "httpspost" then p (apiPre ++ strL "httpps/" ++ dataV)
  else if ty == strL "httptxt" then g (apiPre ++ strL "txt/httpp/" ++ dataV)
  else if ty == strL "httpstxt" then g (apiPre ++ strL "txt/httpps/" ++ dataV)
  else if ty == strL "scrapurl" then g (apiPre ++ strL "scraper/links/?link=" ++ dataV)
  else if ty == strL "scrapimg" then g (apiPre ++ strL "scraper/imgs/?link=" ++ dataV)
  else if ty == strL "cheerioc" then g (apiPre ++ strL "scraper/cheeriohtml/?link=" ++ dataV)
  else if ty == strL "scraprss" then g (apiPre ++ strL "scraper/rss?link=" ++ dataV)
  else if ty == strL "cclip" then g (apiPre ++ strL "clip/erase")
  else if ty == strL "delfile" then g (apiPre ++ strL "files/del?path=" ++ dataV)
  else if ty == strL "mvfile" then g (apiPre ++ strL "files/mv" ++ dataV)
  else if ty == strL "uploadlink" then p (apiPre ++ strL "uploadLink")
  else if ty == strL "saveclip" then p (apiPre ++ strL "clip/save")
  else if ty == strL "logfile" then g (apiPre ++ strL "task/log/toFile?name=" ++ dataV)
  else if ty == strL "cfgimport" then g (apiPre ++ strL "cfg/import?path=" ++ dataV)
  else if ty == strL "cfgexport" then g (apiPre ++ strL "cfg/export?name=" ++ dataV)
  else if ty == strL "consoleget" then g (apiPre ++ strL "console?text=" ++ dataV)
  else if ty == strL "consolepost" then p (apiPre ++ strL "console")
  else if ty == strL "sendfile" then g (apiPre ++ strL "files/send" ++ dataV)
  else if ty == strL "reload" then g (apiPre ++ strL "reload?cfg=" ++ dataV)
  else g (strL "http://example.com")

/-! ### `doTask` as a state transition with an event trace -/

/-- Observable synchronous effects of one `doTask` call, in program order. -/
inductive Event
  | memWrite (name newData newPostData : Str)
  | dbTaskWrite (name newData newPostData : Str)
  | dispatch (r : BuiltRequest)
  | logAppend (msg : Str)
deriving DecidableEq

def Event.isDbTaskWrite : Event → Bool
  | .dbTaskWrite _ _ _ => true
  | _ => false

/-- In-place mutation of the object found by `gTasks.find(..)`: replace the
first task with the given name. -/
def replaceFirstTask : List Task → Str → Task → List Task
  | [], _, _ => []
  | t :: ts, nm, t2 => if t.name == nm then t2 :: ts else t :: replaceFirstTask ts nm t2

def notFoundMsg (nm : Str) : Str := strL "Task '" ++ nm ++ strL "' not found"

/-- src/index.js lines 366-478.  The advanced templates are assigned to the
in-memory task object (a `memWrite` event), then the request is built from
the evaluated values and dispatched (`dispatch` event).  No write to the
persisted tasks table occurs in this function. -/
def doTask (env : TplEnv) (s : AppState) (tName : Str) : AppState × List Event :=
  match s.gTasks.find? (fun t => t.name == tName) with
  | none => (pushLog s (notFoundMsg tName), [.logAppend (notFoundMsg tName)])
  | some a =>
    let dataV := evalTemplate env a.data
    let postV := evalTemplate env a.postData
    let d2 := advanceTemplate a.data
    let p2 := advanceTemplate a.postData
    let a2 := { a with data := d2, postData := p2 }
    let s2 := { s with gTasks := replaceFirstTask s.gTasks a.name a2 }
    (s2, [.memWrite a.name d2 p2, .dispatch (buildRequest a.type dataV postV a.postType)])

/-- The closure installed by `setInterval` ticks by calling the dispatcher
with the bound task name. -/
def timerFire (env : TplEnv) (s : AppState) (tm : ActiveTimer) : AppState × List Event :=
  doTask env s tm.name

/-! ### Task store and scheduler operations -/

inductive VErr
  | emptyName
  | badTime
  | missingTask
deriving DecidableEq

/-- `gTasks[idx] = task` when found, else push. -/
def replaceOrPush (l : List Task) (t : Task) : List Task :=
  if l.any (fun ob => ob.name == t.name) then replaceFirstTask l t.name t else l ++ [t]

/-- POST /api/task/add (src/index.js lines 1083-1105). -/
def taskAdd (s : AppState) (rawName ty dataV pTy pData : Str) : Except VErr AppState :=
  let tName := trimL rawName
  if tName.isEmpty then .error .emptyName
  else
    let task : Task := ⟨tName, ty, dataV, pTy, pData⟩
    .ok { s with
      db := { s.db with tasks := dbUpsertTask s.db.tasks task },
      gTasks := replaceOrPush s.gTasks task }

/-- GET /api/task/del/:name (src/index.js lines 1112-1127).  Returns the new
state and the ids of the cleared interval timers. -/
def taskDel (s : AppState) (tName : Str) : AppState × List Nat :=
  let db1 := { s.db with tasks := dbDeleteTask s.db.tasks tName }
  let gT := s.gTasks.filter (fun ob => !(ob.name == tName))
  let affected := s.gIntervals.filter (fun i => i.name == tName)
  let db2 := affected.foldl (fun d i => { d with intervalDefs := dbDeleteIntervalDef d.intervalDefs i.name }) db1
  let gI := s.gIntervals.filter (fun i => !(i.name == tName))
  ({ s with db := db2, gTasks := gT, gIntervals := gI }, affected.map (fun i => i.id))

/-- POST /api/task/interval/add (src/index.js lines 1191-1214).
`timeParsed` is the result of `parseInt(req.body.time, 10)` (`none` = NaN). -/
def intervalAdd (s : AppState) (rawName : Str) (timeParsed : Option Int) : Except VErr AppState :=
  let name := trimL rawName
  if name.isEmpty then .error .emptyName
  else
    match timeParsed with
    | none => .error .badTime
    | some t =>
      if t ≤ 0 then .error .badTime
      else if !(s.gTasks.any (fun ob => ob.name == name)) then .error .missingTask
      else .ok { s with
        db := { s.db with intervalDefs := dbAddIntervalDef s.db.intervalDefs name t },
        gIntervals := s.gIntervals ++ [⟨name, s.nextTimerId, t⟩],
        nextTimerId := s.nextTimerId + 1 }

/-- One entry of a configuration snapshot. -/
inductive CfgEntry
  | task (name ty dataV pTy pData : Str)
  | routine (name : Str) (time : Int)
deriving DecidableEq

/-- One step of the task phase of /api/cfg/import (lines 662-673). -/
def importTask (s : AppState) (e : Task) : AppState :=
  let nm := trimL e.name
  if nm.isEmpty then s
  else
    let t := { e with name := nm }
    { s with
      db := { s.db with tasks := dbUpsertTask s.db.tasks t },
      gTasks := replaceOrPush s.gTasks t }

/-- One step of the routine phase of /api/cfg/import (lines 677-689). -/
def importRoutine (s : AppState) (nm : Str) (tm : Int) : AppState :=
  if s.gTasks.any (fun t => t.name == nm) then
    { s with
      db := { s.db with intervalDefs := dbAddIntervalDef s.db.intervalDefs nm tm },
      gIntervals := s.gIntervals ++ [⟨nm, s.nextTimerId, tm⟩],
      nextTimerId := s.nextTimerId + 1 }
  else s

/-- GET /api/cfg/import (src/index.js lines 630-697): all task entries are
applied first, then all routine entries. -/
def cfgImport (s : AppState) (entries : List CfgEntry) : AppState :=
  let ts := entries.filterMap (fun e => match e with
    | .task n ty d pt pd => some (Task.mk n ty d pt pd)
    | _ => none)
  let rs := entries.filterMap (fun e => match e with
    | .routine n tm => some (n, tm)
    | _ => none)
  let s1 := ts.foldl importTask s
  rs.foldl (fun st r => importRoutine st r.1 r.2) s1

/-- The `defs.forEach` of the startup block (lines 76-84): orphan interval
definitions are deleted from the store and produce no timer; the others each
produce one timer with the persisted period. -/
def hydrateLoop (tasks : List Task) :
    List IntervalDef → List IntervalDef → List ActiveTimer → Nat →
    List IntervalDef × List ActiveTimer × Nat
  | [], defsDb, tms, nid => (defsDb, tms, nid)
  | d :: rest, defsDb, tms, nid =>
    if tasks.any (fun t => t.name == d.name) then
      hydrateLoop tasks rest defsDb (tms ++ [⟨d.name, nid, d.timeMs⟩]) (nid + 1)
    else
      hydrateLoop tasks rest (dbDeleteIntervalDef defsDb d.name) tms nid

/-- Closed form of the timers produced by the hydrate loop: one per
definition, ids counting up from `nid`. -/
def buildTimers : List IntervalDef → Nat → List ActiveTimer
  | [], _ => []
  | d :: rest, nid => ⟨d.name, nid, d.timeMs⟩ :: buildTimers rest (nid + 1)

/-- Startup hydration/rehydration (src/index.js lines 63-87). -/
def rehydrate (db : DbState) : AppState :=
  let tasks := db.tasks.filter (fun t => !(trimL t.name).isEmpty)
  let res := hydrateLoop tasks db.intervalDefs db.intervalDefs [] 0
  { db := { db with intervalDefs := res.1 },
    gTasks := tasks,
    gIntervals := res.2.1,
    gTasksLog := dbGetLastLogs MAX_LOG_ENTRIES db.logs,
    nextTimerId := res.2.2 }

/-- No interval may reference a missing task (spec §3 invariant). -/
def noOrphansB (s : AppState) : Bool :=
  s.gIntervals.all (fun i => s.gTasks.any (fun t => t.name == i.name))

/-- The persisted interval definitions are mirrored by active timers. -/
def defsMirroredB (s : AppState) : Bool :=
  s.db.intervalDefs.all (fun d => s.gIntervals.any (fun i => i.name == d.name))

/-- A fixed concrete environment for witnesses. -/
def env0 : TplEnv :=
  ⟨strL "12_00", strL "01_01_2026", fun _ _ => [], fun _ _ => [], fun _ _ => []⟩

/-- Attempt oracle: three transient 500s, then a 200. -/
def oracleW : Nat → NetOutcome :=
  fun i => if i < 3 then NetOutcome.response 500 else NetOutcome.response 200

/-- Attempt oracle: a non-transient error code on every attempt. -/
def oracleE : Nat → NetOutcome :=
  fun _ => NetOutcome.netError (some "EACCES")

/-- The empty application state. -/
def emptyApp : AppState := ⟨⟨[], [], []⟩, [], [], [], 0⟩

/-- A saved task with a stateful counter template. -/
def task0 : Task := ⟨strL "t", strL "consoleget", strL "~inc$0~", [], []⟩

/-- A state holding `task0` in the store and the cache. -/
def st0 : AppState := ⟨⟨[task0], [], []⟩, [task0], [], [], 0⟩

/-- A state holding `task0` plus one routine bound to it. -/
def st1 : AppState :=
  ⟨⟨[task0], [⟨strL "t", 7⟩], []⟩, [task0], [⟨strL "t", 42, 7⟩], [], 43⟩

/-- A store with one task, one live interval definition and one orphan. -/
def db1 : DbState :=
  ⟨[⟨strL "t", strL "http", strL "d", [], []⟩], [⟨strL "t", 60000⟩, ⟨strL "ghost", 5⟩], []⟩

/-- The template `~inc$N~` for a canonical decimal `N`. -/
def incTpl (n : Nat) : Str := incPat ++ natToChars n ++ ['~']

/-- The template `~dec$N~` for a canonical decimal `N`. -/
def decTpl (n : Nat) : Str := decPat ++ natToChars n ++ ['~']

/-- The template `~dec$I~` for a canonical decimal integer `I`. -/
def decTplI (i : Int) : Str := decPat ++ intToChars i ++ ['~']

/-- The bracket template `~\x7bt1 t2 ... tk\x7d~`. -/
def brTpl (toks : List Str) : Str :=
  '~' :: '\x7b' :: (joinSp toks ++ '\x7d' :: '~' :: [])

/-! ## Lemmas -/

/-! ### List and string basics -/

theorem stripPfx_eq_some {pat t r : Str} (h : stripPfx pat t = some r) : t = pat ++ r := by
  unfold stripPfx at h
  split at h
  · rename_i hp
    obtain ⟨u, hu⟩ := List.isPrefixOf_iff_prefix.mp hp
    cases h
    rw [← hu, List.drop_left]
  · cases h

theorem stripPfx_of_append (pat r : Str) : stripPfx pat (pat ++ r) = some r := by
  unfold stripPfx
  rw [if_pos (List.isPrefixOf_iff_prefix.mpr ⟨r, rfl⟩), List.drop_left]

theorem takeWhile_app {p : Char → Bool} :
    ∀ {l : Str}, (∀ c ∈ l, p c = true) → ∀ r : Str, (l ++ r).takeWhile p = l ++ r.takeWhile p := by
  intro l
  induction l with
  | nil => intro _ r; simp
  | cons c cs ih =>
    intro h r
    have hc : p c = true := h c (by simp)
    simp only [List.cons_append, List.takeWhile_cons, hc, if_true]
    rw [ih (fun x hx => h x (by simp [hx])) r]

theorem dropWhile_app {p : Char → Bool} :
    ∀ {l : Str}, (∀ c ∈ l, p c = true) → ∀ r : Str, (l ++ r).dropWhile p = r.dropWhile p := by
  intro l
  induction l with
  | nil => intro _ r; simp
  | cons c cs ih =>
    intro h r
    have hc : p c = true := h c (by simp)
    simp only [List.cons_append, List.dropWhile_cons, hc, if_true]
    exact ih (fun x hx => h x (by simp [hx])) r

theorem dropWhile_subset {p : Char → Bool} {l : Str} {c : Char}
    (h : c ∈ l.dropWhile p) : c ∈ l :=
  (List.dropWhile_sublist p).subset h

theorem suffix_cons_cases {t : Str} {x : Char} {l : Str} (h : t <:+ x :: l) :
    t = x :: l ∨ t <:+ l := by
  obtain ⟨u, hu⟩ := h
  cases u with
  | nil => left; simpa using hu
  | cons y ys =>
    right
    simp only [List.cons_append] at hu
    injection hu with h1 h2
    exact ⟨ys, h2⟩

theorem suffix_append_cases {t l r : Str} (h : t <:+ l ++ r) :
    t <:+ r ∨ ∃ u, u <:+ l ∧ u ≠ [] ∧ t = u ++ r := by
  induction l with
  | nil => left; simpa using h
  | cons x xs ih =>
    rcases suffix_cons_cases (by simpa using h) with h1 | h1
    · right
      exact ⟨x :: xs, List.suffix_refl _, by simp, by simpa using h1⟩
    · rcases ih h1 with h2 | ⟨u, hu1, hu2, hu3⟩
      · left; exact h2
      · right; exact ⟨u, hu1.trans (List.suffix_cons x xs), hu2, hu3⟩

/-! ### Decimal rendering facts -/

theorem natToCharsGo_irrel :
    ∀ (f1 n : Nat), n ≤ f1 → ∀ (f2 : Nat), n ≤ f2 →
      natToCharsGo f1 n = natToCharsGo f2 n := by
  intro f1
  induction f1 with
  | zero =>
    intro n hn f2 _
    have : n = 0 := by omega
    subst this
    cases f2 with
    | zero => rfl
    | succ m => simp [natToCharsGo]
  | succ m ih =>
    intro n hn f2 h2
    cases f2 with
    | zero =>
      have : n = 0 := by omega
      subst this
      simp [natToCharsGo]
    | succ m2 =>
      simp only [natToCharsGo]
      by_cases h10 : n < 10
      · rw [if_pos h10, if_pos h10]
      · rw [if_neg h10, if_neg h10]
        have hlt : n / 10 < n := Nat.div_lt_self (by omega) (by omega)
        rw [ih (n / 10) (by omega) m2 (by omega)]

/-- The defining equation of `natToChars`. -/
theorem natToChars_eq (n : Nat) :
    natToChars n = if n < 10 then [digitChar n] else natToChars (n / 10) ++ [digitChar (n % 10)] := by
  unfold natToChars
  cases n with
  | zero => simp [natToCharsGo]
  | succ m =>
    simp only [natToCharsGo]
    by_cases h10 : m + 1 < 10
    · rw [if_pos h10, if_pos h10]
    · rw [if_neg h10, if_neg h10]
      have hlt : (m + 1) / 10 < m + 1 := Nat.div_lt_self (by omega) (by omega)
      rw [natToCharsGo_irrel m ((m + 1) / 10) (by omega) ((m + 1) / 10) (by omega)]

theorem digitChar_isDigit {d : Nat} (h : d < 10) : (digitChar d).isDigit = true := by
  interval_cases d <;> decide

theorem digitVal_digitChar {d : Nat} (h : d < 10) : digitVal (digitChar d) = d := by
  interval_cases d <;> decide

theorem natToChars_digits : ∀ (n : Nat), ∀ c ∈ natToChars n, c.isDigit = true := by
  intro n
  induction n using Nat.strong_induction_on with
  | _ n ih =>
    intro c hc
    rw [natToChars_eq] at hc
    split at hc
    · rename_i h
      simp only [List.mem_singleton] at hc
      subst hc
      exact digitChar_isDigit h
    · rename_i h
      rw [List.mem_append] at hc
      rcases hc with hc | hc
      · exact ih (n / 10) (Nat.div_lt_self (by omega) (by decide)) c hc
      · simp only [List.mem_singleton] at hc
        subst hc
        exact digitChar_isDigit (Nat.mod_lt _ (by decide))

theorem natToChars_ne_nil (n : Nat) : natToChars n ≠ [] := by
  rw [natToChars_eq]
  split <;> simp

theorem not_mem_natToChars {c : Char} (h : c.isDigit = false) (n : Nat) :
    c ∉ natToChars n := by
  intro hc
  rw [natToChars_digits n c hc] at h
  cases h

theorem parseDigits_append_one (l : Str) (c : Char) :
    parseDigits (l ++ [c]) = 10 * parseDigits l + digitVal c := by
  simp [parseDigits, List.foldl_append]

theorem parseDigits_natToChars : ∀ n : Nat, parseDigits (natToChars n) = n := by
  intro n
  induction n using Nat.strong_induction_on with
  | _ n ih =>
    rw [natToChars_eq]
    split
    · rename_i h
      show parseDigits ([] ++ [digitChar n]) = n
      rw [parseDigits_append_one]
      have h0 : parseDigits [] = 0 := rfl
      rw [h0, digitVal_digitChar h]
      omega
    · rename_i h
      rw [parseDigits_append_one,
        ih (n / 10) (Nat.div_lt_self (by omega) (by decide)),
        digitVal_digitChar (Nat.mod_lt _ (by decide))]
      omega

theorem intToChars_ofNat (k : Nat) : intToChars (k : Int) = natToChars k := by
  unfold intToChars
  rw [if_neg (by omega)]
  simp

/-! ### Replace-combinator lemmas -/

theorem replFirst_matched {α : Type} (m : Str → Option (α × Str)) (f : α → Str)
    {c : Char} {cs : Str} {cap : α} {rest : Str} (h : m (c :: cs) = some (cap, rest)) :
    replFirst m f (c :: cs) = f cap ++ rest := by
  simp [replFirst, h]

theorem replFirst_eq_self {α : Type} (m : Str → Option (α × Str)) (f : α → Str) :
    ∀ s : Str, (∀ t, t <:+ s → m t = none) → replFirst m f s = s := by
  intro s
  induction s with
  | nil => intro _; rfl
  | cons c cs ih =>
    intro h
    have h0 : m (c :: cs) = none := h _ (List.suffix_refl _)
    simp only [replFirst, h0]
    rw [ih (fun t ht => h t (ht.trans (List.suffix_cons c cs)))]

/-! ### Shapes of successful matches -/

theorem tryLit_some_shape {pat t : Str} {r : Unit × Str} (h : tryLit pat t = some r) :
    ∃ v, t = pat ++ v := by
  unfold tryLit at h
  cases hp : stripPfx pat t with
  | none => rw [hp] at h; cases h
  | some v => exact ⟨v, stripPfx_eq_some hp⟩

theorem tryNum_some_shape {pat t : Str} {r : Str × Str} (h : tryNum pat t = some r) :
    ∃ v, t = pat ++ v := by
  unfold tryNum at h
  cases hp : stripPfx pat t with
  | none => rw [hp] at h; cases h
  | some v => exact ⟨v, stripPfx_eq_some hp⟩

theorem tryBr_some_shape {t : Str} {r : Str × Str} (h : tryBr t = some r) :
    ∃ v, t = brPat ++ v := by
  unfold tryBr at h
  cases hp : stripPfx brPat t with
  | none => rw [hp] at h; cases h
  | some v => exact ⟨v, stripPfx_eq_some hp⟩

theorem tryArith_some_shape {op : Char} {t : Str} {r : (Str × Str) × Str}
    (h : tryArith op t = some r) : ∃ v, t = tildePat ++ v := by
  unfold tryArith at h
  cases hp : stripPfx tildePat t with
  | none => rw [hp] at h; cases h
  | some v => exact ⟨v, stripPfx_eq_some hp⟩

theorem tryFiles_some_shape {t : Str} {r : (Str × Str) × Str} (h : tryFiles t = some r) :
    ∃ v, t = filesPat ++ v := by
  unfold tryFiles at h
  cases hp : stripPfx filesPat t with
  | none => rw [hp] at h; cases h
  | some v => exact ⟨v, stripPfx_eq_some hp⟩

theorem tryDotted_some_shape {pat t : Str} {r : (Str × Str) × Str}
    (h : tryDotted pat t = some r) : ∃ v, t = pat ++ v := by
  unfold tryDotted at h
  cases hp : stripPfx pat t with
  | none => rw [hp] at h; cases h
  | some v => exact ⟨v, stripPfx_eq_some hp⟩

/-! ### Skipping stages that cannot match -/

theorem replFirst_skip_of_shape {α : Type} (m : Str → Option (α × Str)) (f : α → Str)
    (pat : Str) (hshape : ∀ t r, m t = some r → ∃ v, t = pat ++ v)
    {s : Str} {c : Char} (hc : c ∈ pat) (h : c ∉ s) : replFirst m f s = s := by
  apply replFirst_eq_self
  intro t ht
  cases hm : m t with
  | none => rfl
  | some r =>
    obtain ⟨v, hv⟩ := hshape t r hm
    have hct : c ∈ t := by rw [hv]; exact List.mem_append_left v hc
    exact absurd (ht.subset hct) h

theorem tryArith_some_op {op : Char} {t : Str} {r : (Str × Str) × Str}
    (h : tryArith op t = some r) : op ∈ t := by
  unfold tryArith at h
  cases hp : stripPfx tildePat t with
  | none => rw [hp] at h; cases h
  | some v =>
    rw [hp] at h
    simp only [] at h
    split at h
    · cases h
    · cases hd : (v.dropWhile Char.isDigit).dropWhile isWs with
      | nil => rw [hd] at h; cases h
      | cons c r2 =>
        rw [hd] at h
        by_cases hco : (c == op) = true
        · have h1 : c ∈ (v.dropWhile Char.isDigit).dropWhile isWs := by rw [hd]; simp
          have h2 : c ∈ v := dropWhile_subset (dropWhile_subset h1)
          have h3 : c ∈ t := by
            rw [stripPfx_eq_some hp]; exact List.mem_append_right _ h2
          rwa [eq_of_beq hco] at h3
        · simp only [] at h
          rw [if_neg hco] at h; cases h

theorem replFirst_skip_arith (op : Char) (f : Str × Str → Str)
    {s : Str} (h : op ∉ s) : replFirst (tryArith op) f s = s := by
  apply replFirst_eq_self
  intro t ht
  cases hm : tryArith op t with
  | none => rfl
  | some r => exact absurd (ht.subset (tryArith_some_op hm)) h

/-! ### The global bracket replace -/

theorem replAllBrGo_irrel (f : Str → Str) :
    ∀ (f1 : Nat) (s : Str), s.length ≤ f1 → ∀ (f2 : Nat), s.length ≤ f2 →
      replAllBrGo f f1 s = replAllBrGo f f2 s := by
  intro f1
  induction f1 with
  | zero =>
    intro s hs f2 _
    have : s = [] := List.length_eq_zero.mp (by omega)
    subst this
    cases f2 <;> rfl
  | succ n ih =>
    intro s hs f2 h2
    cases s with
    | nil => cases f2 <;> rfl
    | cons c cs =>
      cases f2 with
      | zero => simp at h2
      | succ n2 =>
        simp only [replAllBrGo]
        cases hm : tryBr (c :: cs) with
        | some r =>
          obtain ⟨cap, rest⟩ := r
          simp only []
          have hlt := tryBr_length hm
          simp only [List.length_cons] at hs h2 hlt
          rw [ih rest (by omega) n2 (by omega)]
        | none =>
          simp only []
          simp only [List.length_cons] at hs h2
          rw [ih cs (by omega) n2 (by omega)]

theorem replAllBr_nil (f : Str → Str) : replAllBr f [] = [] := rfl

theorem replAllBr_cons_none {f : Str → Str} {c : Char} {cs : Str}
    (h : tryBr (c :: cs) = none) : replAllBr f (c :: cs) = c :: replAllBr f cs := by
  show replAllBrGo f (cs.length + 1) (c :: cs) = _
  simp only [replAllBrGo, h]
  rfl

theorem replAllBr_cons_some {f : Str → Str} {c : Char} {cs cap rest : Str}
    (h : tryBr (c :: cs) = some (cap, rest)) :
    replAllBr f (c :: cs) = f cap ++ replAllBr f rest := by
  show replAllBrGo f (cs.length + 1) (c :: cs) = _
  simp only [replAllBrGo, h]
  have hlt := tryBr_length h
  simp only [List.length_cons] at hlt
  rw [replAllBrGo_irrel f cs.length rest (by omega) rest.length (by omega)]
  rfl

theorem replAllBr_eq_self (f : Str → Str) :
    ∀ s : Str, (∀ t, t <:+ s → tryBr t = none) → replAllBr f s = s := by
  intro s
  induction s with
  | nil => intro _; exact replAllBr_nil f
  | cons c cs ih =>
    intro h
    rw [replAllBr_cons_none (h _ (List.suffix_refl _))]
    rw [ih (fun t ht => h t (ht.trans (List.suffix_cons c cs)))]

theorem replAllBr_skip {f : Str → Str} {s : Str} {c : Char}
    (hc : c ∈ brPat) (h : c ∉ s) : replAllBr f s = s := by
  apply replAllBr_eq_self
  intro t ht
  cases hm : tryBr t with
  | none => rfl
  | some r =>
    obtain ⟨v, hv⟩ := tryBr_some_shape hm
    have hct : c ∈ t := by rw [hv]; exact List.mem_append_left v hc
    exact absurd (ht.subset hct) h

/-! ### Firing the numeric and bracket matchers -/

theorem tryNum_fire (pat : Str) {ds : Str} (r : Str)
    (hne : ds ≠ []) (hds : ∀ c ∈ ds, c.isDigit = true) :
    tryNum pat (pat ++ ds ++ '~' :: r) = some (ds, r) := by
  unfold tryNum
  rw [show pat ++ ds ++ '~' :: r = pat ++ (ds ++ '~' :: r) by simp,
    stripPfx_of_append]
  simp only []
  rw [takeWhile_app hds, dropWhile_app hds]
  have h1 : ('~' :: r).takeWhile Char.isDigit = [] := by
    rw [List.takeWhile_cons, if_neg (by decide)]
  have h2 : ('~' :: r).dropWhile Char.isDigit = '~' :: r := by
    rw [List.dropWhile_cons, if_neg (by decide)]
  rw [h1, h2]
  simp [hne]

theorem tryBr_fire {content : Str} (r : Str) (hc : ∀ c ∈ content, notRb c = true) :
    tryBr ('~' :: '\x7b' :: (content ++ '\x7d' :: '~' :: r)) = some (content, r) := by
  unfold tryBr
  have hs : stripPfx brPat ('~' :: '\x7b' :: (content ++ '\x7d' :: '~' :: r)) =
      some (content ++ '\x7d' :: '~' :: r) := by
    have h := stripPfx_of_append brPat (content ++ '\x7d' :: '~' :: r)
    simpa [brPat, strL] using h
  rw [hs]
  simp only []
  rw [dropWhile_app hc, takeWhile_app hc]
  have h1 : ('\x7d' :: '~' :: r).dropWhile notRb = '\x7d' :: '~' :: r := by
    rw [List.dropWhile_cons, if_neg (by decide)]
  have h2 : ('\x7d' :: '~' :: r).takeWhile notRb = [] := by
    rw [List.takeWhile_cons, if_neg (by decide)]
  rw [h1, h2]
  simp

theorem replFirst_fire_of_ne_nil {α : Type} (m : Str → Option (α × Str)) (f : α → Str)
    {s : Str} {cap : α} {rest : Str} (hne : s ≠ []) (h : m s = some (cap, rest)) :
    replFirst m f s = f cap ++ rest := by
  cases s with
  | nil => exact absurd rfl hne
  | cons c cs => exact replFirst_matched m f h

/-! ### The inc/dec templates under one expansion pass -/

theorem not_mem_numTpl {c : Char} {pfx : Str} (h1 : c ∉ pfx) (h2 : c.isDigit = false)
    (h3 : c ≠ '~') (n : Nat) : c ∉ pfx ++ natToChars n ++ ['~'] := by
  intro hm
  simp only [List.mem_append, List.mem_singleton] at hm
  rcases hm with (hm | hm) | hm
  · exact h1 hm
  · exact not_mem_natToChars h2 n hm
  · exact h3 hm

theorem not_mem_app {c : Char} {s1 s2 : Str} (h1 : c ∉ s1) (h2 : c ∉ s2) :
    c ∉ s1 ++ s2 := by
  intro hm
  rcases List.mem_append.mp hm with hm | hm
  · exact h1 hm
  · exact h2 hm

theorem incTpl_ne_nil (n : Nat) : incTpl n ≠ [] := by simp [incTpl, incPat, strL]

theorem decTpl_ne_nil (n : Nat) : decTpl n ≠ [] := by simp [decTpl, decPat, strL]

theorem tryNum_fire_app (pat : Str) (n : Nat) (r : Str) :
    tryNum pat (pat ++ natToChars n ++ '~' :: r) = some (natToChars n, r) :=
  tryNum_fire pat r (natToChars_ne_nil n) (natToChars_digits n)

theorem tryInc_incTpl (n : Nat) : tryInc (incTpl n) = some (natToChars n, []) := by
  unfold tryInc incTpl
  exact tryNum_fire_app incPat n []

theorem tryDec_decTpl (n : Nat) : tryDec (decTpl n) = some (natToChars n, []) := by
  unfold tryDec decTpl
  exact tryNum_fire_app decPat n []

/-- The six evaluation stages after the `dec` one (bracket, plus, minus,
files, lines, words) leave a string without their anchor characters
unchanged. -/
theorem evalStages_post (env : TplEnv) {s : Str}
    (hbr : '\x7b' ∉ s) (hp : '+' ∉ s) (hm : '-' ∉ s)
    (hf : 'f' ∉ s) (hl : 'l' ∉ s) (hw : 'w' ∉ s) :
    replFirst tryWords (fun ab => env.wordAt ab.1 ab.2)
      (replFirst tryLines (fun ab => env.lineAt ab.1 ab.2)
        (replFirst tryFiles (fun ab => env.files ab.1 ab.2)
          (replFirst (tryArith '-') (fun ab => ab.1)
            (replFirst (tryArith '+') (fun ab => ab.1)
              (replAllBr firstTok s))))) = s := by
  rw [replAllBr_skip (show '\x7b' ∈ brPat by decide) hbr,
    replFirst_skip_arith '+' _ hp,
    replFirst_skip_arith '-' _ hm,
    replFirst_skip_of_shape tryFiles _ filesPat (fun t r => tryFiles_some_shape)
      (show 'f' ∈ filesPat by decide) hf,
    replFirst_skip_of_shape tryLines _ linesPat (fun t r => tryDotted_some_shape)
      (show 'l' ∈ linesPat by decide) hl,
    replFirst_skip_of_shape tryWords _ wordsPat (fun t r => tryDotted_some_shape)
      (show 'w' ∈ wordsPat by decide) hw]

/-- All ten stages leave a digit-only string unchanged. -/
theorem evalStages_digits (env : TplEnv) (n : Nat) :
    replFirst tryWords (fun ab => env.wordAt ab.1 ab.2)
      (replFirst tryLines (fun ab => env.lineAt ab.1 ab.2)
        (replFirst tryFiles (fun ab => env.files ab.1 ab.2)
          (replFirst (tryArith '-') (fun ab => ab.1)
            (replFirst (tryArith '+') (fun ab => ab.1)
              (replAllBr firstTok (natToChars n)))))) = natToChars n := by
  have hres : ∀ c : Char, c.isDigit = false → c ∉ natToChars n :=
    fun c h => not_mem_natToChars h n
  exact evalStages_post env (hres _ (by decide)) (hres _ (by decide)) (hres _ (by decide))
    (hres _ (by decide)) (hres _ (by decide)) (hres _ (by decide))

/-- `~inc$N~` evaluates to the decimal of `N`. -/
theorem evalTemplate_incTpl (env : TplEnv) (n : Nat) :
    evalTemplate env (incTpl n) = natToChars n := by
  have hh : 'h' ∉ incTpl n := not_mem_numTpl (by decide) (by decide) (by decide) n
  have ha : 'a' ∉ incTpl n := not_mem_numTpl (by decide) (by decide) (by decide) n
  have hd : 'd' ∉ natToChars n := not_mem_natToChars (by decide) n
  simp only [evalTemplate]
  rw [replFirst_skip_of_shape (tryLit hourPat) _ hourPat (fun t r => tryLit_some_shape)
      (show 'h' ∈ hourPat by decide) hh,
    replFirst_skip_of_shape (tryLit datePat) _ datePat (fun t r => tryLit_some_shape)
      (show 'a' ∈ datePat by decide) ha,
    replFirst_fire_of_ne_nil _ _ (incTpl_ne_nil n) (tryInc_incTpl n),
    List.append_nil,
    parseDigits_natToChars,
    replFirst_skip_of_shape tryDec _ decPat (fun t r => tryNum_some_shape)
      (show 'd' ∈ decPat by decide) hd]
  exact evalStages_digits env n

/-- `~dec$N~` evaluates to the decimal of `N`. -/
theorem evalTemplate_decTpl (env : TplEnv) (n : Nat) :
    evalTemplate env (decTpl n) = natToChars n := by
  have hh : 'h' ∉ decTpl n := not_mem_numTpl (by decide) (by decide) (by decide) n
  have ha : 'a' ∉ decTpl n := not_mem_numTpl (by decide) (by decide) (by decide) n
  have hi : 'i' ∉ decTpl n := not_mem_numTpl (by decide) (by decide) (by decide) n
  simp only [evalTemplate]
  rw [replFirst_skip_of_shape (tryLit hourPat) _ hourPat (fun t r => tryLit_some_shape)
      (show 'h' ∈ hourPat by decide) hh,
    replFirst_skip_of_shape (tryLit datePat) _ datePat (fun t r => tryLit_some_shape)
      (show 'a' ∈ datePat by decide) ha,
    replFirst_skip_of_shape tryInc _ incPat (fun t r => tryNum_some_shape)
      (show 'i' ∈ incPat by decide) hi,
    replFirst_fire_of_ne_nil _ _ (decTpl_ne_nil n) (tryDec_decTpl n),
    List.append_nil,
    parseDigits_natToChars]
  exact evalStages_digits env n

/-- The six advance stages after the `dec` one leave a string without their
anchor characters unchanged. -/
theorem advStages_post {s : Str}
    (hbr : '\x7b' ∉ s) (hp : '+' ∉ s) (hm : '-' ∉ s)
    (hf : 'f' ∉ s) (hl : 'l' ∉ s) (hw : 'w' ∉ s) :
    replFirst tryWords (fun ab => strL "~words " ++ ab.1 ++ ' ' :: natToChars (parseDigits ab.2 + 1) ++ ['~'])
      (replFirst tryLines (fun ab => strL "~lines " ++ ab.1 ++ ' ' :: natToChars (parseDigits ab.2 + 1) ++ ['~'])
        (replFirst tryFiles (fun ab => strL "~files " ++ ab.1 ++ ' ' :: natToChars (parseDigits ab.2 + 1) ++ ['~'])
          (replFirst (tryArith '-') (fun ab => '~' :: intToChars ((parseDigits ab.1 : Int) - (parseDigits ab.2 : Int)) ++ strL " - " ++ ab.2 ++ ['~'])
            (replFirst (tryArith '+') (fun ab => '~' :: natToChars (parseDigits ab.1 + parseDigits ab.2) ++ strL " + " ++ ab.2 ++ ['~'])
              (replAllBr rotateBr s))))) = s := by
  rw [replAllBr_skip (show '\x7b' ∈ brPat by decide) hbr,
    replFirst_skip_arith '+' _ hp,
    replFirst_skip_arith '-' _ hm,
    replFirst_skip_of_shape tryFiles _ filesPat (fun t r => tryFiles_some_shape)
      (show 'f' ∈ filesPat by decide) hf,
    replFirst_skip_of_shape tryLines _ linesPat (fun t r => tryDotted_some_shape)
      (show 'l' ∈ linesPat by decide) hl,
    replFirst_skip_of_shape tryWords _ wordsPat (fun t r => tryDotted_some_shape)
      (show 'w' ∈ wordsPat by decide) hw]

/-- The seven advance stages after the `inc` one leave `~inc$M~` unchanged. -/
theorem advStages_incTpl (m : Nat) :
    replFirst tryWords (fun ab => strL "~words " ++ ab.1 ++ ' ' :: natToChars (parseDigits ab.2 + 1) ++ ['~'])
      (replFirst tryLines (fun ab => strL "~lines " ++ ab.1 ++ ' ' :: natToChars (parseDigits ab.2 + 1) ++ ['~'])
        (replFirst tryFiles (fun ab => strL "~files " ++ ab.1 ++ ' ' :: natToChars (parseDigits ab.2 + 1) ++ ['~'])
          (replFirst (tryArith '-') (fun ab => '~' :: intToChars ((parseDigits ab.1 : Int) - (parseDigits ab.2 : Int)) ++ strL " - " ++ ab.2 ++ ['~'])
            (replFirst (tryArith '+') (fun ab => '~' :: natToChars (parseDigits ab.1 + parseDigits ab.2) ++ strL " + " ++ ab.2 ++ ['~'])
              (replAllBr rotateBr
                (replFirst tryDec (fun ds => decPat ++ intToChars ((parseDigits ds : Int) - 1) ++ ['~'])
                  (incTpl m))))))) = incTpl m := by
  have hmem : ∀ c : Char, c ∉ incPat → c.isDigit = false → c ≠ '~' → c ∉ incTpl m :=
    fun c h1 h2 h3 => not_mem_numTpl h1 h2 h3 m
  rw [replFirst_skip_of_shape tryDec _ decPat (fun t r => tryNum_some_shape)
      (show 'd' ∈ decPat by decide) (hmem 'd' (by decide) (by decide) (by decide))]
  exact advStages_post (hmem _ (by decide) (by decide) (by decide))
    (hmem _ (by decide) (by decide) (by decide)) (hmem _ (by decide) (by decide) (by decide))
    (hmem _ (by decide) (by decide) (by decide)) (hmem _ (by decide) (by decide) (by decide))
    (hmem _ (by decide) (by decide) (by decide))

/-- When the literal hour/date patterns and the files/lines/words patterns
cannot match (their marker letters are absent), evaluation reduces to the
env-free middle stages, which are then decidable on concrete templates. -/
theorem evalTemplate_envfree (env : TplEnv) {s m : Str}
    (hh : 'h' ∉ s) (ha : 'a' ∉ s)
    (hmid : replFirst (tryArith '-') (fun ab => ab.1)
      (replFirst (tryArith '+') (fun ab => ab.1)
        (replAllBr firstTok
          (replFirst tryDec (fun ds => natToChars (parseDigits ds))
            (replFirst tryInc (fun ds => natToChars (parseDigits ds)) s)))) = m)
    (hf : 'f' ∉ m) (hl : 'l' ∉ m) (hw : 'w' ∉ m) :
    evalTemplate env s = m := by
  simp only [evalTemplate]
  rw [replFirst_skip_of_shape (tryLit hourPat) _ hourPat (fun t r => tryLit_some_shape)
      (show 'h' ∈ hourPat by decide) hh,
    replFirst_skip_of_shape (tryLit datePat) _ datePat (fun t r => tryLit_some_shape)
      (show 'a' ∈ datePat by decide) ha,
    hmid,
    replFirst_skip_of_shape tryFiles _ filesPat (fun t r => tryFiles_some_shape)
      (show 'f' ∈ filesPat by decide) hf,
    replFirst_skip_of_shape tryLines _ linesPat (fun t r => tryDotted_some_shape)
      (show 'l' ∈ linesPat by decide) hl,
    replFirst_skip_of_shape tryWords _ wordsPat (fun t r => tryDotted_some_shape)
      (show 'w' ∈ wordsPat by decide) hw]

/-! ### A pair of `inc` placeholders: only the first is substituted -/

theorem incPair_ne_nil (m n : Nat) : incTpl m ++ incTpl n ≠ [] := by
  simp [incTpl, incPat, strL]

theorem tryInc_pair (m n : Nat) :
    tryInc (incTpl m ++ incTpl n) = some (natToChars m, incTpl n) := by
  unfold tryInc
  have hshape : incTpl m ++ incTpl n = incPat ++ natToChars m ++ '~' :: incTpl n := by
    simp [incTpl, List.append_assoc]
  rw [hshape]
  exact tryNum_fire_app incPat m (incTpl n)

theorem not_mem_incPair {c : Char} (h1 : c ∉ incPat) (h2 : c.isDigit = false)
    (h3 : c ≠ '~') (m n : Nat) : c ∉ incTpl m ++ incTpl n :=
  not_mem_app (not_mem_numTpl h1 h2 h3 m) (not_mem_numTpl h1 h2 h3 n)

theorem not_mem_digits_incTpl {c : Char} (h1 : c ∉ incPat) (h2 : c.isDigit = false)
    (h3 : c ≠ '~') (m n : Nat) : c ∉ natToChars m ++ incTpl n :=
  not_mem_app (not_mem_natToChars h2 m) (not_mem_numTpl h1 h2 h3 n)

/-- With two `~inc$..~` placeholders, evaluation substitutes only the first;
the second stays as literal text. -/
theorem evalTemplate_incPair (env : TplEnv) (m n : Nat) :
    evalTemplate env (incTpl m ++ incTpl n) = natToChars m ++ incTpl n := by
  have hmem : ∀ c : Char, c ∉ incPat → c.isDigit = false → c ≠ '~' →
      c ∉ incTpl m ++ incTpl n :=
    fun c h1 h2 h3 => not_mem_incPair h1 h2 h3 m n
  have hres : ∀ c : Char, c ∉ incPat → c.isDigit = false → c ≠ '~' →
      c ∉ natToChars m ++ incTpl n :=
    fun c h1 h2 h3 => not_mem_digits_incTpl h1 h2 h3 m n
  simp only [evalTemplate]
  rw [replFirst_skip_of_shape (tryLit hourPat) _ hourPat (fun t r => tryLit_some_shape)
      (show 'h' ∈ hourPat by decide) (hmem 'h' (by decide) (by decide) (by decide)),
    replFirst_skip_of_shape (tryLit datePat) _ datePat (fun t r => tryLit_some_shape)
      (show 'a' ∈ datePat by decide) (hmem 'a' (by decide) (by decide) (by decide)),
    replFirst_fire_of_ne_nil _ _ (incPair_ne_nil m n) (tryInc_pair m n),
    parseDigits_natToChars,
    replFirst_skip_of_shape tryDec _ decPat (fun t r => tryNum_some_shape)
      (show 'd' ∈ decPat by decide) (hres 'd' (by decide) (by decide) (by decide))]
  exact evalStages_post env (hres _ (by decide) (by decide) (by decide))
    (hres _ (by decide) (by decide) (by decide)) (hres _ (by decide) (by decide) (by decide))
    (hres _ (by decide) (by decide) (by decide)) (hres _ (by decide) (by decide) (by decide))
    (hres _ (by decide) (by decide) (by decide))

/-- With two `~inc$..~` placeholders, the advance pass rewrites only the
first. -/
theorem advanceTemplate_incPair (m n : Nat) :
    advanceTemplate (incTpl m ++ incTpl n) = incTpl (m + 1) ++ incTpl n := by
  have hres : ∀ c : Char, c ∉ incPat → c.isDigit = false → c ≠ '~' →
      c ∉ incTpl (m + 1) ++ incTpl n :=
    fun c h1 h2 h3 => not_mem_incPair h1 h2 h3 (m + 1) n
  simp only [advanceTemplate]
  rw [replFirst_fire_of_ne_nil _ _ (incPair_ne_nil m n) (tryInc_pair m n),
    parseDigits_natToChars,
    show (incPat ++ natToChars (m + 1) ++ ['~']) ++ incTpl n = incTpl (m + 1) ++ incTpl n
      from rfl,
    replFirst_skip_of_shape tryDec _ decPat (fun t r => tryNum_some_shape)
      (show 'd' ∈ decPat by decide) (hres 'd' (by decide) (by decide) (by decide))]
  exact advStages_post (hres _ (by decide) (by decide) (by decide))
    (hres _ (by decide) (by decide) (by decide)) (hres _ (by decide) (by decide) (by decide))
    (hres _ (by decide) (by decide) (by decide)) (hres _ (by decide) (by decide) (by decide))
    (hres _ (by decide) (by decide) (by decide))

/-- `~inc$N~` advances to `~inc$(N+1)~`. -/
theorem advanceTemplate_incTpl (n : Nat) :
    advanceTemplate (incTpl n) = incTpl (n + 1) := by
  simp only [advanceTemplate]
  rw [replFirst_fire_of_ne_nil _ _ (incTpl_ne_nil n) (tryInc_incTpl n),
    List.append_nil, parseDigits_natToChars]
  exact advStages_incTpl (n + 1)

/-- `~dec$N~` advances to `~dec$(N-1)~` (as a signed decimal). -/
theorem advanceTemplate_decTpl (n : Nat) :
    advanceTemplate (decTpl n) = decTplI ((n : Int) - 1) := by
  cases n with
  | zero => decide
  | succ m =>
    have hca : ((m + 1 : Nat) : Int) - 1 = ((m : Nat) : Int) := by push_cast; ring
    have hI : intToChars (((m + 1 : Nat) : Int) - 1) = natToChars m := by
      rw [hca, intToChars_ofNat]
    have hi : 'i' ∉ decTpl (m + 1) :=
      not_mem_numTpl (by decide) (by decide) (by decide) (m + 1)
    have hmem : ∀ c : Char, c ∉ decPat → c.isDigit = false → c ≠ '~' → c ∉ decTpl m :=
      fun c h1 h2 h3 => not_mem_numTpl h1 h2 h3 m
    simp only [advanceTemplate]
    rw [replFirst_skip_of_shape tryInc _ incPat (fun t r => tryNum_some_shape)
        (show 'i' ∈ incPat by decide) hi,
      replFirst_fire_of_ne_nil _ _ (decTpl_ne_nil (m + 1)) (tryDec_decTpl (m + 1)),
      List.append_nil, parseDigits_natToChars, hI]
    show _ = decTplI ((((m : Nat) + 1 : Nat) : Int) - 1)
    rw [show decTplI ((((m : Nat) + 1 : Nat) : Int) - 1) = decTpl m by
      unfold decTplI decTpl
      rw [hca, intToChars_ofNat]]
    exact advStages_post (hmem _ (by decide) (by decide) (by decide))
      (hmem _ (by decide) (by decide) (by decide)) (hmem _ (by decide) (by decide) (by decide))
      (hmem _ (by decide) (by decide) (by decide)) (hmem _ (by decide) (by decide) (by decide))
      (hmem _ (by decide) (by decide) (by decide))

theorem advanceIter_fixed {s : Str} (h : advanceTemplate s = s) :
    ∀ k : Nat, advanceIter k s = s := by
  intro k
  induction k with
  | zero => rfl
  | succ m ih => simp only [advanceIter, h]; exact ih

/-! ## Claim theorems -/

/-- Claim C5: expanding a template containing `~inc$N~` (for any non-negative
integer `N`) evaluates the placeholder to the decimal string of `N` for this
run and rewrites the template to `~inc$(N+1)~` for the next run; `~dec$N~`
evaluates to `N` and rewrites to `~dec$(N-1)~` (signed decimal). -/
theorem claim_C5 : ∀ (env : TplEnv) (n : Nat),
    evalTemplate env (incTpl n) = natToChars n ∧
    advanceTemplate (incTpl n) = incTpl (n + 1) ∧
    evalTemplate env (decTpl n) = natToChars n ∧
    advanceTemplate (decTpl n) = decTplI ((n : Int) - 1) :=
  fun env n =>
    ⟨evalTemplate_incTpl env n, advanceTemplate_incTpl n,
     evalTemplate_decTpl env n, advanceTemplate_decTpl n⟩

/-- Claim C4: in one expansion pass each placeholder kind is substituted at
most once — with two `~inc$..~` (or two `~dec$..~`) placeholders only the
first is evaluated and advanced, the second surviving literally — while the
bracket-rotation form is applied to every match in the template. -/
theorem claim_C4 :
    (∀ (env : TplEnv) (m n : Nat),
      evalTemplate env (incTpl m ++ incTpl n) = natToChars m ++ incTpl n ∧
      advanceTemplate (incTpl m ++ incTpl n) = incTpl (m + 1) ++ incTpl n) ∧
    (∀ env : TplEnv, evalTemplate env (strL "~dec$3~_~dec$9~") = strL "3_~dec$9~") ∧
    advanceTemplate (strL "~dec$3~_~dec$9~") = strL "~dec$2~_~dec$9~" ∧
    (∀ env : TplEnv, evalTemplate env (strL "~\x7bx y\x7d~ ~\x7bz v\x7d~") = strL "x z") ∧
    advanceTemplate (strL "~\x7bx y\x7d~ ~\x7bz v\x7d~") = strL "~\x7by x\x7d~ ~\x7bv z\x7d~" := by
  refine ⟨fun env m n => ⟨evalTemplate_incPair env m n, advanceTemplate_incPair m n⟩,
    fun env => evalTemplate_envfree env (by decide) (by decide) (by decide)
      (by decide) (by decide) (by decide),
    by decide,
    fun env => evalTemplate_envfree env (by decide) (by decide) (by decide)
      (by decide) (by decide) (by decide),
    by decide⟩

/-- Claim C10: once a decrement or subtraction template's leading number goes
negative (`~dec$0~` advances to `~dec$-1~`, `~2 - 7~` to `~-5 - 7~`), the
result matches no expansion pattern: every later run evaluates it to its own
literal text and never advances it again. -/
theorem claim_C10 :
    advanceTemplate (strL "~dec$0~") = strL "~dec$-1~" ∧
    (∀ env : TplEnv, evalTemplate env (strL "~dec$-1~") = strL "~dec$-1~") ∧
    (∀ k : Nat, advanceIter k (strL "~dec$-1~") = strL "~dec$-1~") ∧
    advanceTemplate (strL "~2 - 7~") = strL "~-5 - 7~" ∧
    (∀ env : TplEnv, evalTemplate env (strL "~-5 - 7~") = strL "~-5 - 7~") ∧
    (∀ k : Nat, advanceIter k (strL "~-5 - 7~") = strL "~-5 - 7~") := by
  refine ⟨by decide,
    fun env => evalTemplate_envfree env (by decide) (by decide) (by decide)
      (by decide) (by decide) (by decide),
    advanceIter_fixed (by decide),
    by decide,
    fun env => evalTemplate_envfree env (by decide) (by decide) (by decide)
      (by decide) (by decide) (by decide),
    advanceIter_fixed (by decide)⟩

/-! ### Retry client lemmas -/

theorem withRetriesGo_exhaust (oracle : Nat → NetOutcome) :
    ∀ (ds : List Nat) (k : Nat),
      (∀ i, i < ds.length → shouldRetry (oracle (k + i)) = true) →
      withRetriesGo oracle ds k = ⟨settle (oracle (k + ds.length)), ds, k + ds.length + 1⟩ := by
  intro ds
  induction ds with
  | nil =>
    intro k _
    simp [withRetriesGo]
  | cons d rest ih =>
    intro k h
    have h0 : shouldRetry (oracle k) = true := by simpa using h 0 (by simp)
    simp only [withRetriesGo, h0, if_true]
    rw [ih (k + 1) (fun i hi => by
      have hh := h (i + 1) (by simp only [List.length_cons]; omega)
      simpa [Nat.add_assoc, Nat.add_comm 1 i] using hh)]
    simp only [List.length_cons]
    rw [show k + 1 + rest.length = k + (rest.length + 1) from by omega]

/-! ### Log sink lemmas -/

theorem pushLog_mem_le (s : AppState) (e : Str) :
    (pushLog s e).gTasksLog.length ≤ MAX_LOG_ENTRIES := by
  simp only [pushLog]
  split
  · rename_i h
    simp only [List.length_drop] at h ⊢
    omega
  · rename_i h
    simp only [List.length_append, List.length_singleton] at h ⊢
    omega

theorem pushLog_db (s : AppState) (e : Str) :
    (pushLog s e).db.logs = s.db.logs ++ [e] := rfl

theorem pushLogN_db_len (e : Str) :
    ∀ (n : Nat) (s : AppState), (pushLogN n s e).db.logs.length = s.db.logs.length + n := by
  intro n
  induction n with
  | zero => intro s; simp [pushLogN]
  | succ m ih =>
    intro s
    show (pushLogN m (pushLog s e) e).db.logs.length = _
    rw [ih (pushLog s e), pushLog_db]
    simp only [List.length_append, List.length_singleton]
    omega

theorem dbGetLastLogs_le (limit : Nat) (l : List Str) :
    (dbGetLastLogs limit l).length ≤ limit := by
  simp only [dbGetLastLogs, List.length_reverse, List.length_take]
  omega

/-! ## Claims C1, C2, C3 -/

/-- Claim C2: a call is retried, sleeping the next delay of the backoff list
`[500, 1500, 3500]`, exactly when the status is in `{408, 429, ≥500}` or the
error code is in the transient class; any other outcome returns immediately
with no sleep (a non-transient error propagating as thrown); after the list
is exhausted one final attempt is made with no further delay and its outcome
is returned as-is. -/
theorem claim_C2 :
    (∀ st : Nat, isTransientStatus st = true ↔ st = 408 ∨ st = 429 ∨ 500 ≤ st) ∧
    (∀ c : String, isTransientError (some c) = true ↔ c ∈ transientCodes) ∧
    isTransientError none = false ∧
    RETRY_BACKOFFS_MS = [500, 1500, 3500] ∧
    (∀ (oracle : Nat → NetOutcome) (d : Nat) (rest : List Nat) (k : Nat),
      shouldRetry (oracle k) = false →
      withRetriesGo oracle (d :: rest) k = ⟨settle (oracle k), [], k + 1⟩) ∧
    (∀ (oracle : Nat → NetOutcome) (d : Nat) (rest : List Nat) (k : Nat),
      shouldRetry (oracle k) = true →
      withRetriesGo oracle (d :: rest) k =
        ⟨(withRetriesGo oracle rest (k + 1)).result,
         d :: (withRetriesGo oracle rest (k + 1)).sleeps,
         (withRetriesGo oracle rest (k + 1)).attempts⟩) ∧
    (∀ (oracle : Nat → NetOutcome) (ds : List Nat),
      (∀ i, i < ds.length → shouldRetry (oracle i) = true) →
      withRetries oracle ds = ⟨settle (oracle ds.length), ds, ds.length + 1⟩) := by
  refine ⟨?_, ?_, rfl, rfl, ?_, ?_, ?_⟩
  · intro st
    simp [isTransientStatus, or_assoc]
  · intro c
    simp [isTransientError, transientCodes]
  · intro oracle d rest k h
    simp [withRetriesGo, h]
  · intro oracle d rest k h
    simp [withRetriesGo, h]
  · intro oracle ds h
    have := withRetriesGo_exhaust oracle ds 0 (by simpa using h)
    simpa [withRetries] using this

theorem claim_C2_witness :
    withRetries oracleW RETRY_BACKOFFS_MS = ⟨CallResult.ok 200, [500, 1500, 3500], 4⟩ ∧
    withRetriesGo oracleE RETRY_BACKOFFS_MS 0 = ⟨CallResult.thrown (some "EACCES"), [], 1⟩ := by
  constructor
  · have h := claim_C2.2.2.2.2.2.2 oracleW RETRY_BACKOFFS_MS (by
      intro i hi
      simp only [RETRY_BACKOFFS_MS, List.length_cons, List.length_nil] at hi
      interval_cases i <;> decide)
    rw [h]
    decide
  · have h := claim_C2.2.2.2.2.1 oracleE 500 [1500, 3500] 0 (by decide)
    exact h.trans (by decide)

/-- Claim C3 (counterexample): appending 1001 entries leaves 1001 rows in the
persisted log store — the persisted side is never trimmed to 1000. -/
theorem claim_C3_counterexample :
    (pushLogN 1001 emptyApp (strL "m")).db.logs.length = 1001 ∧
    ¬((pushLogN 1001 emptyApp (strL "m")).db.logs.length ≤ MAX_LOG_ENTRIES) := by
  have h := pushLogN_db_len (strL "m") 1001 emptyApp
  have h0 : emptyApp.db.logs.length = 0 := rfl
  rw [h0] at h
  constructor
  · rw [h]
  · rw [h]
    decide

/-- Claim C3 (amended): every append keeps the in-memory mirror at no more
than 1000 entries (oldest evicted on insert); the persisted store is
append-only — each append adds one row and evicts nothing — and reads of the
persisted log return at most the most recent 1000 entries. -/
theorem claim_C3 :
    (∀ (s : AppState) (e : Str), (pushLog s e).gTasksLog.length ≤ MAX_LOG_ENTRIES) ∧
    (∀ (s : AppState) (e : Str), (pushLog s e).db.logs = s.db.logs ++ [e]) ∧
    (∀ (limit : Nat) (l : List Str), (dbGetLastLogs limit l).length ≤ limit) :=
  ⟨pushLog_mem_le, pushLog_db, dbGetLastLogs_le⟩

/-- Claim C1 (counterexample): a run of the saved task `t` emits only the
in-memory template advance and the dispatch — no write of the advanced
template to the persisted task store happens, and the store still holds the
old template while the cache holds the advanced one. -/
theorem claim_C1_counterexample :
    (doTask env0 st0 (strL "t")).2.all (fun e => !e.isDbTaskWrite) = true ∧
    (doTask env0 st0 (strL "t")).2 =
      [Event.memWrite (strL "t") (strL "~inc$1~") [],
       Event.dispatch ⟨strL "http://localhost:1337/api/console?text=0", false, [], []⟩] ∧
    (doTask env0 st0 (strL "t")).1.db = st0.db ∧
    (doTask env0 st0 (strL "t")).1.gTasks ≠ st0.gTasks := by
  decide

/-- Claim C1 (amended): for every run of a saved task the advanced next-run
templates are computed and stored in the in-memory cache strictly before the
request built from the effective values is dispatched (the `memWrite` event
precedes the `dispatch` event), but this mutation is not written through to
the persisted task store, which keeps the pre-advance templates. -/
theorem claim_C1 : ∀ (env : TplEnv) (s : AppState) (nm : Str) (a : Task),
    s.gTasks.find? (fun t => t.name == nm) = some a →
    doTask env s nm =
      ({ s with gTasks := replaceFirstTask s.gTasks a.name (Task.mk a.name a.type (advanceTemplate a.data) a.postType (advanceTemplate a.postData)) },
       [Event.memWrite a.name (advanceTemplate a.data) (advanceTemplate a.postData),
        Event.dispatch (buildRequest a.type (evalTemplate env a.data)
          (evalTemplate env a.postData) a.postType)]) ∧
    (doTask env s nm).1.db = s.db ∧
    (doTask env s nm).2.all (fun e => !e.isDbTaskWrite) = true := by
  intro env s nm a h
  refine ⟨?_, ?_, ?_⟩ <;> simp [doTask, h, Event.isDbTaskWrite]

theorem claim_C1_witness :
    (doTask env0 st0 (strL "t")).1.db = st0.db ∧
    (doTask env0 st0 (strL "t")).2.all (fun e => !e.isDbTaskWrite) = true :=
  ⟨(claim_C1 env0 st0 (strL "t") task0 (by decide)).2.1,
   (claim_C1 env0 st0 (strL "t") task0 (by decide)).2.2⟩

/-! ### Rehydration lemmas -/

theorem hydrateLoop_defs (tasks : List Task) :
    ∀ (l dbDefs : List IntervalDef) (tms : List ActiveTimer) (nid : Nat),
      (hydrateLoop tasks l dbDefs tms nid).1 =
        dbDefs.filter (fun x =>
          !(l.any (fun d => !(tasks.any (fun t => t.name == d.name)) && x.name == d.name))) := by
  intro l
  induction l with
  | nil =>
    intro dbDefs tms nid
    simp [hydrateLoop]
  | cons d rest ih =>
    intro dbDefs tms nid
    by_cases hok : tasks.any (fun t => t.name == d.name) = true
    · simp only [hydrateLoop, hok, if_true]
      rw [ih]
      congr 1
      funext x
      simp [hok]
    · have hok' : tasks.any (fun t => t.name == d.name) = false := by
        revert hok
        cases tasks.any (fun t => t.name == d.name) <;> simp
      simp only [hydrateLoop, hok', Bool.false_eq_true, if_false]
      rw [ih]
      unfold dbDeleteIntervalDef
      rw [List.filter_filter]
      congr 1
      funext x
      simp only [List.any_cons, hok', Bool.not_false, Bool.true_and, Bool.not_or]
      rw [Bool.and_comm]

theorem hydrateLoop_timers (tasks : List Task) :
    ∀ (l dbDefs : List IntervalDef) (tms : List ActiveTimer) (nid : Nat),
      (hydrateLoop tasks l dbDefs tms nid).2.1 =
        tms ++ buildTimers (l.filter (fun d => tasks.any (fun t => t.name == d.name))) nid := by
  intro l
  induction l with
  | nil =>
    intro dbDefs tms nid
    simp [hydrateLoop, buildTimers]
  | cons d rest ih =>
    intro dbDefs tms nid
    by_cases hok : tasks.any (fun t => t.name == d.name) = true
    · simp only [hydrateLoop, hok, if_true]
      rw [ih]
      simp [List.filter_cons, hok, buildTimers]
    · have hok' : tasks.any (fun t => t.name == d.name) = false := by
        revert hok
        cases tasks.any (fun t => t.name == d.name) <;> simp
      simp only [hydrateLoop, hok', Bool.false_eq_true, if_false]
      rw [ih]
      simp [List.filter_cons, hok']

theorem buildTimers_filter_nil {nm : Str} :
    ∀ (l : List IntervalDef) (nid : Nat), (∀ d ∈ l, d.name ≠ nm) →
      (buildTimers l nid).filter (fun tm => tm.name == nm) = [] := by
  intro l
  induction l with
  | nil => intro nid _; rfl
  | cons d rest ih =>
    intro nid h
    have hd : d.name ≠ nm := h d (by simp)
    simp only [buildTimers, List.filter_cons]
    rw [if_neg (by simpa using hd)]
    exact ih (nid + 1) (fun x hx => h x (by simp [hx]))

theorem buildTimers_filter_one {nm : Str} :
    ∀ (l : List IntervalDef) (nid : Nat) (d : IntervalDef),
      (l.map (fun x => x.name)).Nodup → d ∈ l → d.name = nm →
      ∃ id, (buildTimers l nid).filter (fun tm => tm.name == nm) = [⟨nm, id, d.timeMs⟩] := by
  intro l
  induction l with
  | nil => intro nid d _ hd; cases hd
  | cons d0 rest ih =>
    intro nid d hnd hd hnm
    simp only [List.map_cons, List.nodup_cons] at hnd
    rcases List.mem_cons.mp hd with rfl | hd
    · refine ⟨nid, ?_⟩
      simp only [buildTimers, List.filter_cons]
      rw [if_pos (by simpa using hnm)]
      rw [buildTimers_filter_nil rest (nid + 1) (fun x hx hxe => hnd.1 (by
        rw [hnm, ← hxe]
        exact List.mem_map.mpr ⟨x, hx, rfl⟩))]
      rw [hnm]
    · have hne : d0.name ≠ nm := by
        intro he
        exact hnd.1 (by
          rw [he, ← hnm]
          exact List.mem_map.mpr ⟨d, hd, rfl⟩)
      simp only [buildTimers, List.filter_cons]
      rw [if_neg (by simpa using hne)]
      exact ih (nid + 1) d hnd.2 hd hnm

/-! ## Claim C8 -/

/-- Claim C8: at startup rehydration, a persisted interval definition whose
referenced task no longer exists is deleted and produces no timer; one whose
task exists stays persisted and produces exactly one active timer carrying
the persisted period. -/
theorem claim_C8 : ∀ (db : DbState) (d : IntervalDef),
    (db.intervalDefs.map (fun x => x.name)).Nodup → d ∈ db.intervalDefs →
    ((db.tasks.filter (fun t => !(trimL t.name).isEmpty)).any (fun t => t.name == d.name) = false →
      d ∉ (rehydrate db).db.intervalDefs ∧
      (rehydrate db).gIntervals.filter (fun tm => tm.name == d.name) = []) ∧
    ((db.tasks.filter (fun t => !(trimL t.name).isEmpty)).any (fun t => t.name == d.name) = true →
      d ∈ (rehydrate db).db.intervalDefs ∧
      ∃ id, (rehydrate db).gIntervals.filter (fun tm => tm.name == d.name) = [⟨d.name, id, d.timeMs⟩]) := by
  intro db d hnd hd
  have hdefs : (rehydrate db).db.intervalDefs =
      db.intervalDefs.filter (fun x =>
        !(db.intervalDefs.any (fun d0 =>
          !((db.tasks.filter (fun t => !(trimL t.name).isEmpty)).any (fun t => t.name == d0.name)) &&
            x.name == d0.name))) := by
    simp only [rehydrate]
    exact hydrateLoop_defs _ _ _ _ _
  have htms : (rehydrate db).gIntervals =
      buildTimers (db.intervalDefs.filter (fun d0 =>
        (db.tasks.filter (fun t => !(trimL t.name).isEmpty)).any (fun t => t.name == d0.name))) 0 := by
    simp only [rehydrate]
    rw [hydrateLoop_timers]
    simp
  constructor
  · intro horf
    constructor
    · rw [hdefs]
      intro hmem
      have hp := (List.mem_filter.mp hmem).2
      simp only [Bool.not_eq_true', List.any_eq_false] at hp
      have h2 := hp d hd
      rw [horf] at h2
      simp at h2
    · rw [htms]
      apply buildTimers_filter_nil
      intro x hx he
      have hx2 := List.mem_filter.mp hx
      have hcontr : (db.tasks.filter (fun t => !(trimL t.name).isEmpty)).any
          (fun t => t.name == d.name) = true := by
        rw [← he]; exact hx2.2
      rw [horf] at hcontr
      cases hcontr
  · intro hok
    constructor
    · rw [hdefs]
      rw [List.mem_filter]
      refine ⟨hd, ?_⟩
      simp only [Bool.not_eq_true', List.any_eq_false]
      intro d0 hd0
      by_cases hname : (d.name == d0.name) = true
      · have heq : d0.name = d.name := (eq_of_beq hname).symm
        simp [heq, hok]
      · have hname' : (d.name == d0.name) = false := by
          revert hname
          cases d.name == d0.name <;> simp
        simp [hname']
    · rw [htms]
      refine buildTimers_filter_one _ 0 d ?_ (List.mem_filter.mpr ⟨hd, hok⟩) rfl
      exact List.Nodup.sublist
        ((List.filter_sublist db.intervalDefs).map (fun x => x.name)) hnd

/-! ### Task deletion and invariant-preservation lemmas -/

theorem filter_all_not (l : List IntervalDef) (nm : Str) :
    (l.filter (fun x => !(x.name == nm))).all (fun x => !(x.name == nm)) = true := by
  simp only [List.all_eq_true, List.mem_filter]
  exact fun x hx => hx.2

theorem foldl_delete_tasks :
    ∀ (aff : List ActiveTimer) (d0 : DbState),
      (aff.foldl (fun d i => { d with intervalDefs := dbDeleteIntervalDef d.intervalDefs i.name }) d0).tasks
        = d0.tasks := by
  intro aff
  induction aff with
  | nil => intro d0; rfl
  | cons i rest ih => intro d0; exact ih _

theorem foldl_delete_all (nm : Str) :
    ∀ (aff : List ActiveTimer), (∀ i ∈ aff, i.name = nm) → aff ≠ [] →
      ∀ d0 : DbState,
        ((aff.foldl (fun d i => { d with intervalDefs := dbDeleteIntervalDef d.intervalDefs i.name }) d0).intervalDefs.all
          (fun x => !(x.name == nm))) = true := by
  intro aff
  induction aff with
  | nil => intro _ hne; exact absurd rfl hne
  | cons i rest ih =>
    intro hall _ d0
    have hi : i.name = nm := hall i (by simp)
    simp only [List.foldl_cons]
    cases rest with
    | nil =>
      simp only [List.foldl_nil]
      show (dbDeleteIntervalDef d0.intervalDefs i.name).all _ = true
      rw [hi]
      exact filter_all_not _ _
    | cons j rest2 =>
      exact ih (fun x hx => hall x (by simp [hx])) (by simp) _

theorem taskDel_noOrphans (s : AppState) (nm : Str) (h : noOrphansB s = true) :
    noOrphansB (taskDel s nm).1 = true := by
  simp only [noOrphansB, List.all_eq_true, List.any_eq_true] at h ⊢
  simp only [taskDel]
  intro i hi
  rw [List.mem_filter] at hi
  obtain ⟨t, ht, hteq⟩ := h i hi.1
  refine ⟨t, ?_, hteq⟩
  rw [List.mem_filter]
  refine ⟨ht, ?_⟩
  rw [eq_of_beq hteq]
  exact hi.2

theorem replaceFirstTask_any (x nm : Str) (t2 : Task) (h2 : t2.name = nm) :
    ∀ l : List Task,
      (replaceFirstTask l nm t2).any (fun t => t.name == x) = l.any (fun t => t.name == x) := by
  intro l
  induction l with
  | nil => rfl
  | cons t ts ih =>
    simp only [replaceFirstTask]
    by_cases ht : (t.name == nm) = true
    · rw [if_pos ht]
      simp only [List.any_cons]
      rw [h2, eq_of_beq ht]
    · rw [if_neg ht]
      simp only [List.any_cons]
      rw [ih]

theorem replaceOrPush_any {l : List Task} {tk : Task} {x : Str}
    (h : l.any (fun t => t.name == x) = true) :
    (replaceOrPush l tk).any (fun t => t.name == x) = true := by
  unfold replaceOrPush
  split
  · rw [replaceFirstTask_any x tk.name tk rfl]
    exact h
  · rw [List.any_append]
    simp [h]

theorem taskAdd_noOrphans {s s2 : AppState} {r ty d pt pd : Str}
    (hok : taskAdd s r ty d pt pd = .ok s2) (h : noOrphansB s = true) :
    noOrphansB s2 = true := by
  simp only [taskAdd] at hok
  by_cases h1 : (trimL r).isEmpty = true
  · rw [if_pos h1] at hok
    cases hok
  · rw [if_neg h1] at hok
    cases hok
    simp only [noOrphansB, List.all_eq_true, List.any_eq_true] at h ⊢
    intro i hi
    obtain ⟨t, ht, hteq⟩ := h i hi
    have hrp := @replaceOrPush_any s.gTasks ⟨trimL r, ty, d, pt, pd⟩ i.name (by
        rw [List.any_eq_true]
        exact ⟨t, ht, hteq⟩)
    rw [List.any_eq_true] at hrp
    exact hrp

theorem intervalAdd_ok_shape {s s2 : AppState} {r : Str} {tp : Option Int}
    (hok : intervalAdd s r tp = .ok s2) :
    ∃ v, tp = some v ∧ 0 < v ∧ (trimL r).isEmpty = false ∧
      s.gTasks.any (fun ob => ob.name == trimL r) = true ∧
      s2 = { s with
        db := { s.db with intervalDefs := dbAddIntervalDef s.db.intervalDefs (trimL r) v },
        gIntervals := s.gIntervals ++ [⟨trimL r, s.nextTimerId, v⟩],
        nextTimerId := s.nextTimerId + 1 } := by
  simp only [intervalAdd] at hok
  by_cases h1 : (trimL r).isEmpty = true
  · rw [if_pos h1] at hok
    cases hok
  · rw [if_neg h1] at hok
    cases tp with
    | none =>
      simp only [] at hok
      exact absurd hok (by simp)
    | some v =>
      simp only [] at hok
      by_cases h2 : v ≤ 0
      · rw [if_pos h2] at hok
        cases hok
      · rw [if_neg h2] at hok
        by_cases h3 : (!(s.gTasks.any (fun ob => ob.name == trimL r))) = true
        · rw [if_pos h3] at hok
          cases hok
        · rw [if_neg h3] at hok
          cases hok
          refine ⟨v, rfl, by omega, ?_, ?_, rfl⟩
          · revert h1
            cases (trimL r).isEmpty <;> simp
          · revert h3
            cases s.gTasks.any (fun ob => ob.name == trimL r) <;> simp

theorem intervalAdd_noOrphans {s s2 : AppState} {r : Str} {tp : Option Int}
    (hok : intervalAdd s r tp = .ok s2) (h : noOrphansB s = true) :
    noOrphansB s2 = true := by
  obtain ⟨v, _, _, _, hany, rfl⟩ := intervalAdd_ok_shape hok
  simp only [noOrphansB, List.all_eq_true] at h ⊢
  intro i hi
  rcases List.mem_append.mp hi with hi | hi
  · exact h i hi
  · simp only [List.mem_singleton] at hi
    subst hi
    exact hany

theorem importTask_gIntervals (s : AppState) (e : Task) :
    (importTask s e).gIntervals = s.gIntervals := by
  simp only [importTask]
  by_cases h1 : (trimL e.name).isEmpty = true
  · rw [if_pos h1]
  · rw [if_neg h1]

theorem importTask_any {x : Str} (s : AppState) (e : Task)
    (h : s.gTasks.any (fun t => t.name == x) = true) :
    (importTask s e).gTasks.any (fun t => t.name == x) = true := by
  simp only [importTask]
  by_cases h1 : (trimL e.name).isEmpty = true
  · rw [if_pos h1]
    exact h
  · rw [if_neg h1]
    exact replaceOrPush_any h

theorem foldl_importTask_gIntervals (ts : List Task) :
    ∀ s : AppState, (ts.foldl importTask s).gIntervals = s.gIntervals := by
  induction ts with
  | nil => intro s; rfl
  | cons e rest ih =>
    intro s
    simp only [List.foldl_cons]
    rw [ih, importTask_gIntervals]

theorem foldl_importTask_any {x : Str} (ts : List Task) :
    ∀ s : AppState, s.gTasks.any (fun t => t.name == x) = true →
      (ts.foldl importTask s).gTasks.any (fun t => t.name == x) = true := by
  induction ts with
  | nil => intro s h; exact h
  | cons e rest ih =>
    intro s h
    simp only [List.foldl_cons]
    exact ih _ (importTask_any s e h)

theorem foldl_importTask_noOrphans (ts : List Task) (s : AppState)
    (h : noOrphansB s = true) : noOrphansB (ts.foldl importTask s) = true := by
  simp only [noOrphansB, List.all_eq_true] at h ⊢
  intro i hi
  rw [foldl_importTask_gIntervals] at hi
  exact foldl_importTask_any ts s (h i hi) |>.symm ▸ foldl_importTask_any ts s (h i hi)

theorem importRoutine_gTasks (s : AppState) (nm : Str) (tm : Int) :
    (importRoutine s nm tm).gTasks = s.gTasks := by
  unfold importRoutine
  split <;> rfl

theorem importRoutine_noOrphans (s : AppState) (nm : Str) (tm : Int)
    (h : noOrphansB s = true) : noOrphansB (importRoutine s nm tm) = true := by
  simp only [noOrphansB, List.all_eq_true] at h ⊢
  unfold importRoutine
  split
  · rename_i hany
    intro i hi
    simp only [] at hi
    rcases List.mem_append.mp hi with hi | hi
    · exact h i hi
    · simp only [List.mem_singleton] at hi
      subst hi
      exact hany
  · exact h

theorem foldl_importRoutine_noOrphans (rs : List (Str × Int)) :
    ∀ s : AppState, noOrphansB s = true →
      noOrphansB (rs.foldl (fun st r => importRoutine st r.1 r.2) s) = true := by
  induction rs with
  | nil => intro s h; exact h
  | cons r rest ih =>
    intro s h
    simp only [List.foldl_cons]
    exact ih _ (importRoutine_noOrphans s r.1 r.2 h)

theorem cfgImport_noOrphans (s : AppState) (entries : List CfgEntry)
    (h : noOrphansB s = true) : noOrphansB (cfgImport s entries) = true := by
  unfold cfgImport
  exact foldl_importRoutine_noOrphans _ _ (foldl_importTask_noOrphans _ _ h)

theorem buildTimers_all_ok (tasks : List Task) :
    ∀ (l : List IntervalDef) (nid : Nat),
      (∀ d ∈ l, tasks.any (fun t => t.name == d.name) = true) →
      (buildTimers l nid).all (fun tm => tasks.any (fun t => t.name == tm.name)) = true := by
  intro l
  induction l with
  | nil => intro nid _; rfl
  | cons d rest ih =>
    intro nid h
    simp only [buildTimers, List.all_cons]
    rw [h d (by simp), ih (nid + 1) (fun x hx => h x (by simp [hx]))]
    rfl

theorem rehydrate_noOrphans (db : DbState) : noOrphansB (rehydrate db) = true := by
  have htms : (rehydrate db).gIntervals =
      buildTimers (db.intervalDefs.filter (fun d0 =>
        (db.tasks.filter (fun t => !(trimL t.name).isEmpty)).any (fun t => t.name == d0.name))) 0 := by
    simp only [rehydrate]
    rw [hydrateLoop_timers]
    simp
  have hts : (rehydrate db).gTasks = db.tasks.filter (fun t => !(trimL t.name).isEmpty) := by
    simp only [rehydrate]
  simp only [noOrphansB]
  rw [htms, hts]
  exact buildTimers_all_ok _ _ 0 (fun d hd => (List.mem_filter.mp hd).2)

theorem claim_C8_witness :
    (⟨strL "ghost", 5⟩ : IntervalDef) ∉ (rehydrate db1).db.intervalDefs ∧
    (rehydrate db1).gIntervals.filter (fun tm => tm.name == strL "ghost") = [] ∧
    (∃ id, (rehydrate db1).gIntervals.filter (fun tm => tm.name == strL "t") =
      [⟨strL "t", id, 60000⟩]) := by
  have h1 := (claim_C8 db1 ⟨strL "ghost", 5⟩ (by decide) (by decide)).1 (by decide)
  have h2 := (claim_C8 db1 ⟨strL "t", 60000⟩ (by decide) (by decide)).2 (by decide)
  exact ⟨h1.1, h1.2, h2.2⟩

/-! ## Claims C7 and C9 -/

/-- Claim C7: deleting a task removes the task and every interval referencing
its name — from the in-memory cache, from the persisted store (given the
persisted definitions are mirrored by live timers), clearing exactly the
affected timers — and each of add-task, delete-task, add-routine,
config-import and startup rehydration preserves the invariant that no
interval references a missing task. -/
theorem claim_C7 :
    (∀ (s : AppState) (nm : Str),
      (taskDel s nm).1.gTasks.all (fun t => !(t.name == nm)) = true ∧
      (taskDel s nm).1.db.tasks.all (fun t => !(t.name == nm)) = true ∧
      (taskDel s nm).1.gIntervals = s.gIntervals.filter (fun i => !(i.name == nm)) ∧
      (taskDel s nm).2 = (s.gIntervals.filter (fun i => i.name == nm)).map (fun i => i.id) ∧
      (defsMirroredB s = true →
        (taskDel s nm).1.db.intervalDefs.all (fun x => !(x.name == nm)) = true)) ∧
    (∀ (s : AppState) (nm : Str), noOrphansB s = true → noOrphansB (taskDel s nm).1 = true) ∧
    (∀ (s s2 : AppState) (r ty d pt pd : Str),
      taskAdd s r ty d pt pd = .ok s2 → noOrphansB s = true → noOrphansB s2 = true) ∧
    (∀ (s s2 : AppState) (r : Str) (tp : Option Int),
      intervalAdd s r tp = .ok s2 → noOrphansB s = true → noOrphansB s2 = true) ∧
    (∀ (s : AppState) (entries : List CfgEntry),
      noOrphansB s = true → noOrphansB (cfgImport s entries) = true) ∧
    (∀ db : DbState, noOrphansB (rehydrate db) = true) := by
  refine ⟨?_, taskDel_noOrphans, fun s s2 r ty d pt pd hok h => taskAdd_noOrphans hok h,
    fun s s2 r tp hok h => intervalAdd_noOrphans hok h, cfgImport_noOrphans, rehydrate_noOrphans⟩
  intro s nm
  refine ⟨?_, ?_, rfl, rfl, ?_⟩
  · simp only [taskDel, List.all_eq_true, List.mem_filter]
    exact fun t ht => ht.2
  · simp only [taskDel, foldl_delete_tasks, dbDeleteTask, List.all_eq_true, List.mem_filter]
    exact fun t ht => ht.2
  · intro hmir
    simp only [taskDel]
    by_cases haff : s.gIntervals.filter (fun i => i.name == nm) = []
    · rw [haff]
      simp only [List.foldl_nil, List.all_eq_true]
      intro x hx
      simp only [defsMirroredB, List.all_eq_true, List.any_eq_true] at hmir
      obtain ⟨i, hi, hieq⟩ := hmir x hx
      by_cases hxn : (x.name == nm) = true
      · exfalso
        have himem : i ∈ s.gIntervals.filter (fun i => i.name == nm) := by
          rw [List.mem_filter]
          exact ⟨hi, by rw [eq_of_beq hieq, eq_of_beq hxn]; simp⟩
        rw [haff] at himem
        cases himem
      · revert hxn
        cases x.name == nm <;> simp
    · exact foldl_delete_all nm _ (fun i hi => eq_of_beq (List.mem_filter.mp hi).2) haff _

theorem claim_C7_witness :
    (taskDel st1 (strL "t")).1.gIntervals = [] ∧
    (taskDel st1 (strL "t")).2 = [42] ∧
    (taskDel st1 (strL "t")).1.db.intervalDefs.all (fun x => !(x.name == strL "t")) = true ∧
    noOrphansB (taskDel st1 (strL "t")).1 = true ∧
    noOrphansB (rehydrate db1) = true := by
  have h := claim_C7
  refine ⟨?_, ?_, (h.1 st1 (strL "t")).2.2.2.2 (by decide), h.2.1 st1 (strL "t") (by decide),
    h.2.2.2.2.2 db1⟩
  · rw [(h.1 st1 (strL "t")).2.2.1]
    decide
  · rw [(h.1 st1 (strL "t")).2.2.2.1]
    decide

/-- Claim C9: adding a routine fails with a synchronous validation error —
creating no timer and persisting nothing — exactly when the (trimmed) task
name is empty, the parsed period is not a positive number, or no task with
that name exists; on success it upserts the persisted interval definition and
appends one active timer whose ticks invoke the dispatcher for that name. -/
theorem claim_C9 :
    (∀ (s : AppState) (r : Str) (tp : Option Int),
      (∃ e, intervalAdd s r tp = .error e) ↔
        ((trimL r).isEmpty = true ∨ tp = none ∨ (∃ v, tp = some v ∧ v ≤ 0) ∨
          s.gTasks.any (fun ob => ob.name == trimL r) = false)) ∧
    (∀ (s : AppState) (r : Str) (v : Int),
      (trimL r).isEmpty = false → 0 < v →
      s.gTasks.any (fun ob => ob.name == trimL r) = true →
      intervalAdd s r (some v) = .ok { s with
        db := { s.db with intervalDefs := dbAddIntervalDef s.db.intervalDefs (trimL r) v },
        gIntervals := s.gIntervals ++ [⟨trimL r, s.nextTimerId, v⟩],
        nextTimerId := s.nextTimerId + 1 }) ∧
    (∀ (env : TplEnv) (s2 : AppState) (tm : ActiveTimer),
      timerFire env s2 tm = doTask env s2 tm.name) := by
  refine ⟨?_, ?_, fun env s2 tm => rfl⟩
  · intro s r tp
    constructor
    · intro ⟨e, he⟩
      by_contra hcon
      push_neg at hcon
      obtain ⟨h1, h2, h3, h4⟩ := hcon
      cases tp with
      | none => exact h2 rfl
      | some v =>
        have hv : ¬ v ≤ 0 := fun hle => by
          have := h3 v
          simp at this
          omega
        have h1' : (trimL r).isEmpty = false := by
          revert h1
          cases (trimL r).isEmpty <;> simp
        have h4' : s.gTasks.any (fun ob => ob.name == trimL r) = true := by
          revert h4
          cases s.gTasks.any (fun ob => ob.name == trimL r) <;> simp
        simp only [intervalAdd, h1', Bool.false_eq_true, if_false, h4', Bool.not_true] at he
        rw [if_neg hv] at he
        simp at he
    · intro hcases
      simp only [intervalAdd]
      rcases hcases with h1 | h2 | ⟨v, rfl, hv⟩ | h4
      · rw [if_pos h1]
        exact ⟨.emptyName, rfl⟩
      · subst h2
        by_cases h1 : (trimL r).isEmpty = true
        · rw [if_pos h1]
          exact ⟨.emptyName, rfl⟩
        · rw [if_neg h1]
          exact ⟨.badTime, rfl⟩
      · by_cases h1 : (trimL r).isEmpty = true
        · rw [if_pos h1]
          exact ⟨.emptyName, rfl⟩
        · rw [if_neg h1]
          simp only []
          rw [if_pos hv]
          exact ⟨.badTime, rfl⟩
      · by_cases h1 : (trimL r).isEmpty = true
        · rw [if_pos h1]
          exact ⟨.emptyName, rfl⟩
        · rw [if_neg h1]
          cases tp with
          | none => exact ⟨.badTime, rfl⟩
          | some v =>
            simp only []
            by_cases hv : v ≤ 0
            · rw [if_pos hv]
              exact ⟨.badTime, rfl⟩
            · rw [if_neg hv]
              rw [if_pos (by rw [h4]; rfl)]
              exact ⟨.missingTask, rfl⟩
  · intro s r v h1 hv hany
    simp only [intervalAdd, h1, Bool.false_eq_true, if_false]
    rw [if_neg (by omega), if_neg (by rw [hany]; simp)]

theorem claim_C9_witness :
    intervalAdd st0 (strL "t") (some 60000) = .ok { st0 with
      db := { st0.db with intervalDefs := dbAddIntervalDef st0.db.intervalDefs (trimL (strL "t")) 60000 },
      gIntervals := st0.gIntervals ++ [⟨trimL (strL "t"), st0.nextTimerId, 60000⟩],
      nextTimerId := st0.nextTimerId + 1 } ∧
    (∃ e, intervalAdd st0 (strL "ghost") (some 60000) = .error e) := by
  constructor
  · exact claim_C9.2.1 st0 (strL "t") 60000 (by decide) (by decide) (by decide)
  · exact (claim_C9.1 st0 (strL "ghost") (some 60000)).mpr (Or.inr (Or.inr (Or.inr (by decide))))

/-! ### Bracket-template machinery -/

theorem takeWhile_all {p : Char → Bool} {l : Str} (h : ∀ c ∈ l, p c = true) :
    l.takeWhile p = l := by
  have := takeWhile_app h []
  simpa using this

theorem splitSp_token {rest : Str} :
    ∀ {t : Str}, (∀ c ∈ t, c ≠ ' ') → splitSp (t ++ ' ' :: rest) = t :: splitSp rest := by
  intro t
  induction t with
  | nil => intro _; simp [splitSp]
  | cons c t' ih =>
    intro h
    have hc : (c == ' ') = false := by
      have := h c (by simp)
      revert this
      cases hce : c == ' '
      · simp
      · intro hne
        exact absurd (eq_of_beq hce) hne
    simp only [List.cons_append, splitSp, hc, Bool.false_eq_true, if_false, List.append_eq]
    rw [ih (fun x hx => h x (by simp [hx]))]

theorem splitSp_token_only : ∀ {t : Str}, (∀ c ∈ t, c ≠ ' ') → splitSp t = [t] := by
  intro t
  induction t with
  | nil => intro _; rfl
  | cons c t' ih =>
    intro h
    have hc : (c == ' ') = false := by
      have := h c (by simp)
      revert this
      cases hce : c == ' '
      · simp
      · intro hne
        exact absurd (eq_of_beq hce) hne
    simp only [splitSp, hc, Bool.false_eq_true, if_false]
    rw [ih (fun x hx => h x (by simp [hx]))]

theorem splitSp_joinSp : ∀ (toks : List Str), toks ≠ [] →
    (∀ tok ∈ toks, ∀ c ∈ tok, c ≠ ' ') → splitSp (joinSp toks) = toks := by
  intro toks
  induction toks with
  | nil => intro h _; exact absurd rfl h
  | cons t ts ih =>
    intro _ h
    cases ts with
    | nil =>
      show splitSp (joinSp [t]) = [t]
      simp only [joinSp]
      exact splitSp_token_only (h t (by simp))
    | cons t2 rest =>
      show splitSp (t ++ ' ' :: joinSp (t2 :: rest)) = t :: t2 :: rest
      rw [splitSp_token (h t (by simp))]
      rw [ih (by simp) (fun tok htok c hc => h tok (by simp [htok]) c hc)]

theorem mem_joinSp {c : Char} :
    ∀ {toks : List Str}, c ∈ joinSp toks → c = ' ' ∨ ∃ tok ∈ toks, c ∈ tok := by
  intro toks
  induction toks with
  | nil => intro h; cases h
  | cons t ts ih =>
    intro h
    cases ts with
    | nil =>
      right
      exact ⟨t, by simp, by simpa [joinSp] using h⟩
    | cons t2 rest =>
      have h2 : c ∈ t ++ ' ' :: joinSp (t2 :: rest) := h
      rcases List.mem_append.mp h2 with h3 | h3
      · right
        exact ⟨t, by simp, h3⟩
      · rcases List.mem_cons.mp h3 with h4 | h4
        · left; exact h4
        · rcases ih h4 with h5 | ⟨tok, htok, hct⟩
          · left; exact h5
          · right; exact ⟨tok, by simp [htok], hct⟩

theorem not_mem_joinSp {c : Char} {toks : List Str} (hc : c ≠ ' ')
    (h : ∀ tok ∈ toks, ∀ x ∈ tok, x ≠ c) : c ∉ joinSp toks := by
  intro hmem
  rcases mem_joinSp hmem with h1 | ⟨tok, htok, hct⟩
  · exact hc h1
  · exact h tok htok c hct rfl

theorem joinSp_append_singleton (x : Str) :
    ∀ (l : List Str), l ≠ [] → joinSp (l ++ [x]) = joinSp l ++ ' ' :: x := by
  intro l
  induction l with
  | nil => intro h; exact absurd rfl h
  | cons t ts ih =>
    intro _
    cases ts with
    | nil => rfl
    | cons t2 rest =>
      show joinSp (t :: ((t2 :: rest) ++ [x])) = (t ++ ' ' :: joinSp (t2 :: rest)) ++ ' ' :: x
      have h1 : joinSp (t :: ((t2 :: rest) ++ [x])) =
          t ++ ' ' :: joinSp ((t2 :: rest) ++ [x]) := rfl
      rw [h1, ih (by simp)]
      simp

theorem firstTok_joinSp (toks : List Str)
    (h : ∀ tok ∈ toks, ∀ c ∈ tok, c ≠ ' ') :
    firstTok (joinSp toks) = toks.headD [] := by
  cases toks with
  | nil => rfl
  | cons t ts =>
    have hall : ∀ c ∈ t, (!(c == ' ')) = true := by
      intro c hc
      have := h t (by simp) c hc
      revert this
      cases hce : c == ' '
      · simp
      · intro hne
        exact absurd (eq_of_beq hce) hne
    cases ts with
    | nil =>
      show firstTok t = t
      exact takeWhile_all hall
    | cons t2 rest =>
      show (t ++ ' ' :: joinSp (t2 :: rest)).takeWhile (fun c => !(c == ' ')) = t
      rw [takeWhile_app hall]
      simp [List.takeWhile_cons]

theorem anch_of_shape {α : Type} {m : Str → Option (α × Str)} {pat p' : Str}
    (hpat : pat = '~' :: p')
    (hshape : ∀ t r, m t = some r → ∃ v, t = pat ++ v) :
    ∀ (t : Str) (r : α × Str), m t = some r → ∃ v, t = '~' :: v := by
  intro t r hm
  obtain ⟨v, hv⟩ := hshape t r hm
  exact ⟨p' ++ v, by rw [hv, hpat]; rfl⟩

/-- A stage whose matcher is anchored at `~` cannot fire anywhere in a
bracket template whose content avoids `~`, provided it rejects the template
itself, the lone trailing `~` and the empty string. -/
theorem replFirst_skip_brTpl {α : Type} (m : Str → Option (α × Str)) (f : α → Str)
    (content : Str)
    (hanch : ∀ (t : Str) (r : α × Str), m t = some r → ∃ v, t = '~' :: v)
    (hfull : m ('~' :: '\x7b' :: (content ++ '\x7d' :: '~' :: [])) = none)
    (hone : m ['~'] = none)
    (hnil : m ([] : Str) = none)
    (hcontent : '~' ∉ content) :
    replFirst m f ('~' :: '\x7b' :: (content ++ '\x7d' :: '~' :: [])) =
      '~' :: '\x7b' :: (content ++ '\x7d' :: '~' :: []) := by
  apply replFirst_eq_self
  intro t ht
  cases hm : m t with
  | none => rfl
  | some r =>
    exfalso
    obtain ⟨v, hv⟩ := hanch t r hm
    rcases suffix_cons_cases ht with rfl | ht2
    · rw [hfull] at hm
      cases hm
    rcases suffix_cons_cases ht2 with rfl | ht3
    · injection hv with h1 _
      exact absurd h1 (by decide)
    rcases suffix_append_cases ht3 with ht4 | ⟨u, hu, hune, rfl⟩
    · rcases suffix_cons_cases ht4 with rfl | ht5
      · injection hv with h1 _
        exact absurd h1 (by decide)
      · rcases suffix_cons_cases ht5 with rfl | ht6
        · rw [hone] at hm
          cases hm
        · have ht0 : t = [] := List.suffix_nil.mp ht6
          subst ht0
          rw [hnil] at hm
          cases hm
    · cases u with
      | nil => exact absurd rfl hune
      | cons uc u' =>
        have huc : uc ∈ content := (List.IsSuffix.subset hu) (by simp)
        have : uc = '~' := by
          have h2 : uc :: (u' ++ '\x7d' :: '~' :: []) = '~' :: v := hv
          injection h2
        rw [this] at huc
        exact hcontent huc

theorem notRb_of_not_mem {content : Str} (h : '\x7d' ∉ content) :
    ∀ c ∈ content, notRb c = true := by
  intro c hc
  unfold notRb
  cases hcc : c == '\x7d'
  · rfl
  · exact absurd (eq_of_beq hcc ▸ hc) h

/-- Evaluating a bracket template yields its first token. -/
theorem evalTemplate_brTpl (env : TplEnv) (toks : List Str)
    (htk : ∀ tok ∈ toks, ∀ c ∈ tok, c ≠ '~' ∧ c ≠ '\x7d' ∧ c ≠ ' ') :
    evalTemplate env (brTpl toks) = toks.headD [] := by
  have hsp : ∀ tok ∈ toks, ∀ c ∈ tok, c ≠ ' ' := fun tok ht c hc => (htk tok ht c hc).2.2
  have hnotilde : '~' ∉ joinSp toks :=
    not_mem_joinSp (by decide) (fun tok ht x hx => (htk tok ht x hx).1)
  have hnorb : '\x7d' ∉ joinSp toks :=
    not_mem_joinSp (by decide) (fun tok ht x hx => (htk tok ht x hx).2.1)
  have hh2 : '~' ∉ toks.headD [] := by
    cases toks with
    | nil => simp
    | cons t ts =>
      intro hc
      exact (htk t (by simp) '~' hc).1 rfl
  have hfireB : tryBr ('~' :: '\x7b' :: (joinSp toks ++ '\x7d' :: '~' :: [])) =
      some (joinSp toks, []) := tryBr_fire [] (notRb_of_not_mem hnorb)
  simp only [evalTemplate, brTpl]
  rw [replFirst_skip_brTpl (tryLit hourPat) _ (joinSp toks)
        (anch_of_shape rfl (fun t r => tryLit_some_shape)) rfl rfl rfl hnotilde,
    replFirst_skip_brTpl (tryLit datePat) _ (joinSp toks)
        (anch_of_shape rfl (fun t r => tryLit_some_shape)) rfl rfl rfl hnotilde,
    replFirst_skip_brTpl tryInc _ (joinSp toks)
        (anch_of_shape rfl (fun t r => tryNum_some_shape)) rfl rfl rfl hnotilde,
    replFirst_skip_brTpl tryDec _ (joinSp toks)
        (anch_of_shape rfl (fun t r => tryNum_some_shape)) rfl rfl rfl hnotilde,
    replAllBr_cons_some hfireB, replAllBr_nil, List.append_nil,
    firstTok_joinSp toks hsp,
    replFirst_skip_of_shape (tryArith '+') _ tildePat (fun t r => tryArith_some_shape)
      (show '~' ∈ tildePat by decide) hh2,
    replFirst_skip_of_shape (tryArith '-') _ tildePat (fun t r => tryArith_some_shape)
      (show '~' ∈ tildePat by decide) hh2,
    replFirst_skip_of_shape tryFiles _ filesPat (fun t r => tryFiles_some_shape)
      (show '~' ∈ filesPat by decide) hh2,
    replFirst_skip_of_shape tryLines _ linesPat (fun t r => tryDotted_some_shape)
      (show '~' ∈ linesPat by decide) hh2,
    replFirst_skip_of_shape tryWords _ wordsPat (fun t r => tryDotted_some_shape)
      (show '~' ∈ wordsPat by decide) hh2]

/-- Advancing a bracket template of at least two tokens rotates it left. -/
theorem advanceTemplate_brTpl (toks : List Str) (hk : 2 ≤ toks.length)
    (htk : ∀ tok ∈ toks, ∀ c ∈ tok, c ≠ '~' ∧ c ≠ '\x7d' ∧ c ≠ ' ') :
    advanceTemplate (brTpl toks) = brTpl (toks.drop 1 ++ toks.take 1) := by
  obtain ⟨t1, t2, rest, rfl⟩ : ∃ t1 t2 rest, toks = t1 :: t2 :: rest := by
    cases toks with
    | nil => simp at hk
    | cons a ts =>
      cases ts with
      | nil => simp at hk
      | cons b r => exact ⟨a, b, r, rfl⟩
  have hsp : ∀ tok ∈ t1 :: t2 :: rest, ∀ c ∈ tok, c ≠ ' ' :=
    fun tok ht c hc => (htk tok ht c hc).2.2
  have hnotilde : '~' ∉ joinSp (t1 :: t2 :: rest) :=
    not_mem_joinSp (by decide) (fun tok ht x hx => (htk tok ht x hx).1)
  have hnorb : '\x7d' ∉ joinSp (t1 :: t2 :: rest) :=
    not_mem_joinSp (by decide) (fun tok ht x hx => (htk tok ht x hx).2.1)
  have htk2 : ∀ tok ∈ (t2 :: rest) ++ [t1], ∀ c ∈ tok, c ≠ '~' ∧ c ≠ '\x7d' ∧ c ≠ ' ' := by
    intro tok ht c hc
    rcases List.mem_append.mp ht with ht | ht
    · exact htk tok (by simp [ht]) c hc
    · simp only [List.mem_singleton] at ht
      subst ht
      exact htk tok (by simp) c hc
  have hnotilde2 : '~' ∉ joinSp ((t2 :: rest) ++ [t1]) :=
    not_mem_joinSp (by decide) (fun tok ht x hx => (htk2 tok ht x hx).1)
  have hfireB : tryBr ('~' :: '\x7b' :: (joinSp (t1 :: t2 :: rest) ++ '\x7d' :: '~' :: [])) =
      some (joinSp (t1 :: t2 :: rest), []) := tryBr_fire [] (notRb_of_not_mem hnorb)
  have hrot : rotateBr (joinSp (t1 :: t2 :: rest)) =
      '~' :: '\x7b' :: (joinSp ((t2 :: rest) ++ [t1]) ++ '\x7d' :: '~' :: []) := by
    simp only [rotateBr]
    rw [splitSp_joinSp (t1 :: t2 :: rest) (by simp) hsp,
      joinSp_append_singleton t1 (t2 :: rest) (by simp)]
    have h1 : strL "~\x7b" = ['~', '\x7b'] := rfl
    have h2 : strL "\x7d~" = ['\x7d', '~'] := rfl
    have h3 : (t1 :: t2 :: rest).drop 1 = t2 :: rest := rfl
    have h4 : (t1 :: t2 :: rest).take 1 = [t1] := rfl
    have h5 : joinSp [t1] = t1 := rfl
    rw [h1, h2, h3, h4, h5]
    simp [List.append_assoc]
  simp only [advanceTemplate, brTpl]
  rw [replFirst_skip_brTpl tryInc _ (joinSp (t1 :: t2 :: rest))
        (anch_of_shape rfl (fun t r => tryNum_some_shape)) rfl rfl rfl hnotilde,
    replFirst_skip_brTpl tryDec _ (joinSp (t1 :: t2 :: rest))
        (anch_of_shape rfl (fun t r => tryNum_some_shape)) rfl rfl rfl hnotilde,
    replAllBr_cons_some hfireB, replAllBr_nil, List.append_nil, hrot,
    replFirst_skip_brTpl (tryArith '+') _ (joinSp ((t2 :: rest) ++ [t1]))
        (anch_of_shape rfl (fun t r => tryArith_some_shape)) rfl rfl rfl hnotilde2,
    replFirst_skip_brTpl (tryArith '-') _ (joinSp ((t2 :: rest) ++ [t1]))
        (anch_of_shape rfl (fun t r => tryArith_some_shape)) rfl rfl rfl hnotilde2,
    replFirst_skip_brTpl tryFiles _ (joinSp ((t2 :: rest) ++ [t1]))
        (anch_of_shape rfl (fun t r => tryFiles_some_shape)) rfl rfl rfl hnotilde2,
    replFirst_skip_brTpl tryLines _ (joinSp ((t2 :: rest) ++ [t1]))
        (anch_of_shape rfl (fun t r => tryDotted_some_shape)) rfl rfl rfl hnotilde2,
    replFirst_skip_brTpl tryWords _ (joinSp ((t2 :: rest) ++ [t1]))
        (anch_of_shape rfl (fun t r => tryDotted_some_shape)) rfl rfl rfl hnotilde2]
  rfl

/-! ## Claim C6 -/

/-- Claim C6 (counterexample): a single-token bracket list is not rewritten
to its left rotation (itself) — advancing `~\x7ba\x7d~` produces
`~\x7b a\x7d~`, with a stray leading space in the token list. -/
theorem claim_C6_counterexample :
    advanceTemplate (strL "~\x7ba\x7d~") = strL "~\x7b a\x7d~" ∧
    strL "~\x7b a\x7d~" ≠ strL "~\x7ba\x7d~" := by
  decide

/-- Claim C6 (amended): for every space-separated list of at least two
tokens (tokens free of `~`, `\x7d` and spaces), the bracket template
evaluates to its first token and is rewritten to its left rotation. -/
theorem claim_C6 : ∀ (env : TplEnv) (toks : List Str),
    2 ≤ toks.length →
    (∀ tok ∈ toks, ∀ c ∈ tok, c ≠ '~' ∧ c ≠ '\x7d' ∧ c ≠ ' ') →
    evalTemplate env (brTpl toks) = toks.headD [] ∧
    advanceTemplate (brTpl toks) = brTpl (toks.drop 1 ++ toks.take 1) :=
  fun env toks hk htk =>
    ⟨evalTemplate_brTpl env toks htk, advanceTemplate_brTpl toks hk htk⟩

theorem claim_C6_witness :
    evalTemplate env0 (brTpl [strL "a", strL "b", strL "c"]) = strL "a" ∧
    advanceTemplate (brTpl [strL "a", strL "b", strL "c"]) =
      brTpl [strL "b", strL "c", strL "a"] := by
  have h := claim_C6 env0 [strL "a", strL "b", strL "c"] (by decide) (by decide)
  exact ⟨h.1, h.2⟩

end HM
